import Mathlib

/-!
Verification development for the RemoteWiz execution engine.

The definitions below are a shallow embedding of the TypeScript sources:
the SQLite-backed stores become pure functions over lists of records, and
each method of `TaskQueue` (src/core/queue.ts), `ApprovalStore`
(src/core/approval.ts), `Worker` (src/core/worker.ts), `Summarizer`
(src/core/summarizer.ts) and `redactSecrets` (src/utils/redact.ts) becomes a
Lean function on that state.  `nowTs()` (Date.now) is passed explicitly as an
integer argument wherever the source calls it.
-/

namespace RemoteWiz

/-- `TaskStatus` from types.ts. -/
inductive TaskStatus
  | queued
  | running
  | needsApproval
  | done
  | failed
deriving DecidableEq, Repr

/-- `ApprovalStatus` from types.ts. -/
inductive ApprovalStatus
  | pending
  | approved
  | denied
deriving DecidableEq, Repr

/-- `ApprovalActionType` from types.ts. -/
inductive ApprovalActionType
  | fileDelete
  | gitPush
  | gitForce
  | destructiveCmd
  | externalRequest
  | installPackage
  | unknown
deriving DecidableEq, Repr

/-- `TaskRecord` from types.ts (one row of the `tasks` table).  Nullable
columns become `Option`; JS numbers become `Int`. -/
structure TaskRecord where
  id : String
  projectAlias : String
  projectPath : String
  prompt : String
  threadId : String
  adapter : String
  continueSession : Bool
  status : TaskStatus
  result : Option String
  error : Option String
  tokensUsed : Int
  tokenBudget : Option Int
  workerPid : Option Int
  workerPidStart : Option Int
  checkpoint : Option String
  createdAt : Int
  startedAt : Option Int
  completedAt : Option Int
deriving DecidableEq, Repr

/-- `EnqueueTaskInput` from types.ts. -/
structure EnqueueTaskInput where
  id : String
  projectAlias : String
  projectPath : String
  prompt : String
  threadId : String
  adapter : String
  continueSession : Bool
  tokenBudget : Option Int
deriving DecidableEq, Repr

/-- `ApprovalRecord` from types.ts (one row of the `approvals` table). -/
structure ApprovalRecord where
  id : String
  taskId : String
  actionType : ApprovalActionType
  description : String
  status : ApprovalStatus
  requestedAt : Int
  resolvedAt : Option Int
  resolvedBy : Option String
deriving DecidableEq, Repr

/-- The `tasks` table: a list of rows. -/
abbrev TaskTable := List TaskRecord

/-- The `approvals` table: a list of rows. -/
abbrev ApprovalTable := List ApprovalRecord

/-- Whether a status is `running` or `needs_approval` — the statuses used by
the per-project lock subquery in `TaskQueue.dequeueNext` (queue.ts). -/
def TaskStatus.isActive : TaskStatus → Bool
  | .running => true
  | .needsApproval => true
  | _ => false

/-- The `NOT EXISTS (... status IN ('running','needs_approval'))` subquery of
`TaskQueue.dequeueNext`: the project has a row blocking it. -/
def projectBlocked (ts : TaskTable) (projAlias : String) : Bool :=
  ts.any fun r => r.projectAlias == projAlias && r.status.isActive

/-- `SELECT COUNT(*) FROM tasks WHERE project_alias = ? AND status='queued'`
used by `TaskQueue.enqueue` (queue.ts). -/
def queuedCount (ts : TaskTable) (projAlias : String) : Nat :=
  (ts.filter fun r => r.projectAlias == projAlias && r.status == TaskStatus.queued).length

/-- The row inserted by `TaskQueue.enqueue` (queue.ts): status `queued`,
`tokens_used = 0`, `created_at` stamped, all other nullable columns NULL. -/
def insertedTask (input : EnqueueTaskInput) (createdAt : Int) : TaskRecord :=
  { id := input.id
    projectAlias := input.projectAlias
    projectPath := input.projectPath
    prompt := input.prompt
    threadId := input.threadId
    adapter := input.adapter
    continueSession := input.continueSession
    status := TaskStatus.queued
    result := none
    error := none
    tokensUsed := 0
    tokenBudget := input.tokenBudget
    workerPid := none
    workerPidStart := none
    checkpoint := none
    createdAt := createdAt
    startedAt := none
    completedAt := none }

/-- `TaskQueue.enqueue` (queue.ts): count queued rows of the project; if the
count is at or above `maxQueuedPerProject` throw `queue_full` (no insert);
otherwise insert one queued row stamped with `created_at = now`. -/
def enqueue (maxQueuedPerProject : Nat) (ts : TaskTable) (input : EnqueueTaskInput)
    (now : Int) : Except String (TaskTable × TaskRecord) :=
  if queuedCount ts input.projectAlias ≥ maxQueuedPerProject then
    Except.error "queue_full"
  else
    let row := insertedTask input now
    Except.ok (ts ++ [row], row)

/-- Candidate rows of `dequeueNext`'s SELECT: `status = 'queued'` and the
project has no row in `{running, needs_approval}`. -/
def dequeueCandidate (ts : TaskTable) (r : TaskRecord) : Bool :=
  r.status == TaskStatus.queued && !projectBlocked ts r.projectAlias

/-- `ORDER BY created_at ASC LIMIT 1`: the first row with minimal
`created_at` among the candidates. -/
def pickOldest : List TaskRecord → Option TaskRecord
  | [] => none
  | r :: rest =>
    match pickOldest rest with
    | none => some r
    | some b => if b.createdAt < r.createdAt then some b else some r

/-- `TaskQueue.dequeueNext` (queue.ts): inside one transaction, select the
oldest queued row whose project is unblocked, flip it to `running` with
`started_at = now`, and return the updated row. -/
def dequeueNext (ts : TaskTable) (now : Int) : Option TaskRecord × TaskTable :=
  match pickOldest (ts.filter (dequeueCandidate ts)) with
  | none => (none, ts)
  | some row =>
    let updated := ts.map fun r =>
      if r.id == row.id then { r with status := TaskStatus.running, startedAt := some now } else r
    (some { row with status := TaskStatus.running, startedAt := some now }, updated)

/-- `TaskQueue.getById` (queue.ts). -/
def getById (ts : TaskTable) (taskId : String) : Option TaskRecord :=
  ts.find? fun r => r.id == taskId

/-- `TaskQueue.updateStatus` (queue.ts): `COALESCE` keeps the old `result`,
`error` and `completed_at` unless a new value is supplied; `completed_at` is
stamped only when the new status is terminal.  `worker_pid` is untouched. -/
def updateStatus (ts : TaskTable) (taskId : String) (status : TaskStatus)
    (result : Option String) (error : Option String) (now : Int) : TaskTable :=
  let completedAt : Option Int :=
    if status == TaskStatus.done || status == TaskStatus.failed then some now else none
  ts.map fun r =>
    if r.id == taskId then
      { r with
        status := status
        result := result.orElse fun _ => r.result
        error := error.orElse fun _ => r.error
        completedAt := completedAt.orElse fun _ => r.completedAt }
    else r

/-- `TaskQueue.markFailed` (queue.ts): status `failed`, error overwritten,
`completed_at` stamped, both worker-pid columns cleared. -/
def markFailed (ts : TaskTable) (taskId : String) (error : String) (now : Int) : TaskTable :=
  ts.map fun r =>
    if r.id == taskId then
      { r with
        status := TaskStatus.failed
        error := some error
        completedAt := some now
        workerPid := none
        workerPidStart := none }
    else r

/-- `TaskQueue.markDone` (queue.ts): status `done`, result overwritten,
`completed_at` stamped, both worker-pid columns cleared. -/
def markDone (ts : TaskTable) (taskId : String) (summary : String) (now : Int) : TaskTable :=
  ts.map fun r =>
    if r.id == taskId then
      { r with
        status := TaskStatus.done
        result := some summary
        completedAt := some now
        workerPid := none
        workerPidStart := none }
    else r

/-- `TaskQueue.cancel` (queue.ts): conditional update to `failed` with
`error='cancelled_by_user'` for rows still in {queued, running,
needs_approval}; the worker-pid columns are NOT cleared.  Returns whether a
row changed. -/
def cancel (ts : TaskTable) (taskId : String) (now : Int) : Bool × TaskTable :=
  let hit := ts.any fun r =>
    r.id == taskId &&
      (r.status == TaskStatus.queued || r.status == TaskStatus.running ||
        r.status == TaskStatus.needsApproval)
  let updated := ts.map fun r =>
    if r.id == taskId &&
        (r.status == TaskStatus.queued || r.status == TaskStatus.running ||
          r.status == TaskStatus.needsApproval) then
      { r with status := TaskStatus.failed, error := some "cancelled_by_user", completedAt := some now }
    else r
  (hit, updated)

/-- `TaskQueue.updateTokensUsed` (queue.ts). -/
def updateTokensUsed (ts : TaskTable) (taskId : String) (tokensUsed : Int) : TaskTable :=
  ts.map fun r => if r.id == taskId then { r with tokensUsed := tokensUsed } else r

/-- `TaskQueue.setCheckpoint` (queue.ts). -/
def setCheckpoint (ts : TaskTable) (taskId : String) (checkpoint : String) : TaskTable :=
  ts.map fun r => if r.id == taskId then { r with checkpoint := some checkpoint } else r

/-- `TaskQueue.setWorkerPid` (queue.ts): stores the pid pair unconditionally. -/
def setWorkerPid (ts : TaskTable) (taskId : String) (pid pidStart : Int) : TaskTable :=
  ts.map fun r =>
    if r.id == taskId then { r with workerPid := some pid, workerPidStart := some pidStart } else r

/-- `TaskQueue.clearWorkerPid` (queue.ts). -/
def clearWorkerPid (ts : TaskTable) (taskId : String) : TaskTable :=
  ts.map fun r =>
    if r.id == taskId then { r with workerPid := none, workerPidStart := none } else r

/-- `ApprovalStore.create` (approval.ts): insert one pending approval
stamped with `requested_at = now`. -/
def createApproval (aps : ApprovalTable) (id taskId : String)
    (actionType : ApprovalActionType) (description : String) (now : Int) :
    ApprovalTable × ApprovalRecord :=
  let row : ApprovalRecord :=
    { id := id
      taskId := taskId
      actionType := actionType
      description := description
      status := ApprovalStatus.pending
      requestedAt := now
      resolvedAt := none
      resolvedBy := none }
  (aps ++ [row], row)

/-- `ApprovalStore.getById` (approval.ts). -/
def getApprovalById (aps : ApprovalTable) (approvalId : String) : Option ApprovalRecord :=
  aps.find? fun a => a.id == approvalId

/-- `ApprovalStore.resolve` (approval.ts): `UPDATE approvals SET status,
resolved_at, resolved_by WHERE id = ? AND status = 'pending'`; returns
whether a row changed. -/
def resolveApprovalRow (aps : ApprovalTable) (approvalId : String)
    (status : ApprovalStatus) (resolvedBy : String) (now : Int) : Bool × ApprovalTable :=
  let hit := aps.any fun a => a.id == approvalId && a.status == ApprovalStatus.pending
  let updated := aps.map fun a =>
    if a.id == approvalId && a.status == ApprovalStatus.pending then
      { a with status := status, resolvedAt := some now, resolvedBy := some resolvedBy }
    else a
  (hit, updated)

/-- The `WHERE status = 'pending' AND requested_at < cutoff` predicate of
`ApprovalStore.expireOlderThan` (approval.ts). -/
def expiredPred (cutoff : Int) (a : ApprovalRecord) : Bool :=
  a.status == ApprovalStatus.pending && decide (a.requestedAt < cutoff)

/-- The row update performed by `ApprovalStore.expireOlderThan`'s UPDATE
statement on a matching row. -/
def expireFlip (cutoff now : Int) (a : ApprovalRecord) : ApprovalRecord :=
  if expiredPred cutoff a then
    { a with status := ApprovalStatus.denied, resolvedAt := some now,
             resolvedBy := some "system_timeout" }
  else a

/-- `ApprovalStore.expireOlderThan` (approval.ts): with `cutoff = now - ms`,
collect the ids of pending approvals with `requested_at < cutoff`, then flip
exactly those rows to `denied` with `resolved_by = 'system_timeout'` and
`resolved_at` stamped.  Returns the collected ids. -/
def expireOlderThan (aps : ApprovalTable) (ms now : Int) : List String × ApprovalTable :=
  let cutoff := now - ms
  let ids := (aps.filter (expiredPred cutoff)).map (·.id)
  if ids.isEmpty then (ids, aps)
  else (ids, aps.map (expireFlip cutoff now))

/-- One `onTaskUpdate` callback payload (worker.ts `TaskUpdateListener`). -/
structure TaskUpdate where
  taskId : String
  threadId : String
  status : TaskStatus
  summary : Option String
  error : Option String
deriving DecidableEq, Repr

/-- One audit row as the worker writes it (audit.ts `AuditLog.log`); the
redacted structured `detail` is kept as an opaque list of key/value strings. -/
structure AuditEntry where
  timestamp : Int
  taskId : Option String
  projectAlias : Option String
  actor : String
  action : String
  threadId : Option String
deriving DecidableEq, Repr

/-- The durable and observable state the engine-level claims quantify over:
the two tables plus the observable effect streams (audit rows written,
`onTaskUpdate` dispatches, and replay runs launched by `resolveApproval`). -/
structure EngineState where
  tasks : TaskTable
  approvals : ApprovalTable
  audit : List AuditEntry
  updates : List TaskUpdate
  replays : List String
deriving DecidableEq, Repr

/-- One iteration of the expiry loop in `Worker.tick` (worker.ts lines
128–152): look the expired approval up, mark its task failed with
`approval_timeout`, and if the task exists write an audit row and dispatch a
failed update. -/
def tickExpireStep (now : Int) (acc : EngineState) (approvalId : String) : EngineState :=
  match getApprovalById acc.approvals approvalId with
  | none => acc
  | some approval =>
    let tasks := markFailed acc.tasks approval.taskId "approval_timeout" now
    match getById tasks approval.taskId with
    | none => { acc with tasks := tasks }
    | some task =>
      { acc with
        tasks := tasks
        audit := acc.audit ++
          [{ timestamp := now, taskId := some task.id,
             projectAlias := some task.projectAlias, actor := "system",
             action := "approval_timeout", threadId := some task.threadId }]
        updates := acc.updates ++
          [{ taskId := task.id, threadId := task.threadId,
             status := TaskStatus.failed, summary := none,
             error := some "approval_timeout" }] }

/-- The approval-expiry part of `Worker.tick` (worker.ts lines 127–152):
expire old pending approvals, then run `tickExpireStep` for each expired id. -/
def tickExpireApprovals (approvalTimeoutMs now : Int) (st : EngineState) : EngineState :=
  let (expiredIds, aps) := expireOlderThan st.approvals approvalTimeoutMs now
  expiredIds.foldl (tickExpireStep now) { st with approvals := aps }

/-- The `approve`/`deny` argument of `Worker.resolveApproval`. -/
inductive ResolveAction
  | approve
  | deny
deriving DecidableEq, Repr

/-- `Worker.resolveApproval` (worker.ts lines 171–226): look the approval up
(must be pending), atomically flip it, then look the task up — returning
`false` with no further effect when the task row is missing; otherwise audit,
and either mark the task failed (`deny`) or flip it to `running` and launch
the replay run (`approve`).  Note the task's own status is never checked. -/
def workerResolveApproval (st : EngineState) (approvalId actorId : String)
    (action : ResolveAction) (now : Int) : Bool × EngineState :=
  match getApprovalById st.approvals approvalId with
  | none => (false, st)
  | some approval =>
    if approval.status ≠ ApprovalStatus.pending then (false, st)
    else
      let target := if action = ResolveAction.approve then ApprovalStatus.approved
                    else ApprovalStatus.denied
      let (ok, aps) := resolveApprovalRow st.approvals approvalId target actorId now
      if !ok then (false, st)
      else
        let st : EngineState := { st with approvals := aps }
        match getById st.tasks approval.taskId with
        | none => (false, st)
        | some task =>
          let st : EngineState := { st with
            audit := st.audit ++
              [{ timestamp := now, taskId := some task.id,
                 projectAlias := some task.projectAlias, actor := actorId,
                 action := if action = ResolveAction.approve then "approval_granted"
                           else "approval_denied",
                 threadId := some task.threadId }] }
          match action with
          | ResolveAction.deny =>
            let st : EngineState := { st with
              tasks := markFailed st.tasks task.id "approval_denied" now
              updates := st.updates ++
                [{ taskId := task.id, threadId := task.threadId,
                   status := TaskStatus.failed, summary := none,
                   error := some "approval_denied" }] }
            (true, st)
          | ResolveAction.approve =>
            let st : EngineState := { st with
              tasks := updateStatus st.tasks task.id TaskStatus.running none none now
              replays := st.replays ++ [task.id] }
            (true, st)

/-- Number of tasks of a project in `{running, needs_approval}` — the
quantity bounded by 1 in the spec's per-project exclusion invariant. -/
def countActive (ts : TaskTable) (projAlias : String) : Nat :=
  (ts.filter fun r => r.projectAlias == projAlias && r.status.isActive).length

/-- The spec's worker-pid invariant: a set `worker_pid` implies status
`running`. -/
def pidInvariant (ts : TaskTable) : Bool :=
  ts.all fun r => r.workerPid.isNone || r.status == TaskStatus.running

/-- Enqueue input for task `A` of project `p` in the exclusion scenario. -/
def inputA : EnqueueTaskInput :=
  { id := "A", projectAlias := "p", projectPath := "/tmp/p", prompt := "do a",
    threadId := "t1", adapter := "web", continueSession := false, tokenBudget := none }

/-- Enqueue input for task `B` of project `p` in the exclusion scenario. -/
def inputB : EnqueueTaskInput :=
  { id := "B", projectAlias := "p", projectPath := "/tmp/p", prompt := "do b",
    threadId := "t2", adapter := "web", continueSession := false, tokenBudget := none }

/-- A reachable engine history, each step an operation the code performs in
this order: task `A` is enqueued and dequeued; its run ends in
`needs_approval` (worker.ts lines 301–319: update tokens, clear pid, set
status, set checkpoint, insert the pending approval); the user cancels `A`
(`TaskQueue.cancel`); the next tick dequeues `B` of the same project; then an
operator approves the still-pending approval of the cancelled task
(`Worker.resolveApproval`), which flips `A` back to `running` without
checking `A`'s status. -/
def exclusionScenario : EngineState :=
  let ts1 := match enqueue 5 [] inputA 0 with
    | Except.ok (ts, _) => ts
    | Except.error _ => []
  let ts2 := (dequeueNext ts1 1).2
  let ts3 := updateTokensUsed ts2 "A" 10
  let ts4 := clearWorkerPid ts3 "A"
  let ts5 := updateStatus ts4 "A" TaskStatus.needsApproval none none 2
  let ts6 := setCheckpoint ts5 "A" "\x7b\x7d"
  let aps1 := (createApproval [] "ap1" "A" ApprovalActionType.unknown "rm x" 2).1
  let ts7 := (cancel ts6 "A" 3).2
  let ts8 := match enqueue 5 ts7 inputB 4 with
    | Except.ok (ts, _) => ts
    | Except.error _ => ts7
  let ts9 := (dequeueNext ts8 5).2
  let st : EngineState :=
    { tasks := ts9, approvals := aps1, audit := [], updates := [], replays := [] }
  (workerResolveApproval st "ap1" "operator" ResolveAction.approve 6).2

/-- A running task holding its worker pid, as after `setWorkerPid`. -/
def runningPidTask : TaskRecord :=
  { id := "A", projectAlias := "p", projectPath := "/tmp/p", prompt := "do a",
    threadId := "t1", adapter := "web", continueSession := false,
    status := TaskStatus.running, result := none, error := none, tokensUsed := 0,
    tokenBudget := none, workerPid := some 4242, workerPidStart := some 100,
    checkpoint := none, createdAt := 0, startedAt := some 1, completedAt := none }

/-- A pending approval whose task id matches no task row. -/
def ghostApproval : ApprovalRecord :=
  { id := "ap9", taskId := "ghost", actionType := ApprovalActionType.unknown,
    description := "rm x", status := ApprovalStatus.pending, requestedAt := 0,
    resolvedAt := none, resolvedBy := none }

/-- Engine state holding only `ghostApproval`. -/
def ghostState : EngineState :=
  { tasks := [], approvals := [ghostApproval], audit := [], updates := [], replays := [] }

/-- Every task row carrying this id is failed with error `approval_timeout`. -/
def tasksFailedFor (tid : String) (ts : TaskTable) : Prop :=
  ∀ t ∈ ts, t.id = tid → t.status = TaskStatus.failed ∧ t.error = some "approval_timeout"

/-- A pending approval for `runningPidTask`, requested at time 0. -/
def oldApproval : ApprovalRecord :=
  { id := "apO", taskId := "A", actionType := ApprovalActionType.unknown,
    description := "rm x", status := ApprovalStatus.pending, requestedAt := 0,
    resolvedAt := none, resolvedBy := none }

/-- Engine state with `runningPidTask` and its old pending approval. -/
def oldApprovalState : EngineState :=
  { tasks := [runningPidTask], approvals := [oldApproval], audit := [],
    updates := [], replays := [] }

/-- JS `a || b` on strings: the empty string is falsy. -/
def jsOrElse (a b : String) : String :=
  if a = "" then b else a

/-- `sub` begins the character list `s`. -/
def charsHaveHead : List Char → List Char → Bool
  | [], _ => true
  | _ :: _, [] => false
  | a :: as, b :: bs => a == b && charsHaveHead as bs

/-- `sub` occurs contiguously inside the character list. -/
def charsContain (sub : List Char) : List Char → Bool
  | [] => sub.isEmpty
  | c :: rest => charsHaveHead sub (c :: rest) || charsContain sub rest

/-- Substring containment, modelling JS `String.prototype.includes`. -/
def strContains (s sub : String) : Bool :=
  charsContain sub.data s.data

/-- Per-character lowercasing, modelling JS `toLowerCase` on the ASCII texts
the worker handles. -/
def jsToLower (s : String) : String :=
  String.mk (s.data.map Char.toLower)

/-- Strip leading whitespace from a character list. -/
def dropLeadingWs : List Char → List Char
  | [] => []
  | c :: rest => if c.isWhitespace then dropLeadingWs rest else c :: rest

/-- JS `String.prototype.trim`: strip whitespace from both ends. -/
def jsTrim (s : String) : String :=
  String.mk ((dropLeadingWs (dropLeadingWs s.data).reverse).reverse)

/-- `looksLikeResumeFailure` (worker.ts lines 961–975). -/
def looksLikeResumeFailure (input : String) : Bool :=
  let text := jsToLower input
  if !strContains text "resume" && !strContains text "session" &&
      !strContains text "conversation" then
    false
  else
    strContains text "session not found" || strContains text "conversation not found" ||
    strContains text "unknown session" || strContains text "invalid session" ||
    strContains text "unable to resume" || strContains text "failed to resume" ||
    strContains text "no such conversation"

/-- What `Worker.executeClaude` has observed by the time the child has
exited (worker.ts lines 558–668): the parsed stream outcome (permission
event, tool summaries, replay actions, session id, token usage), the
monitor flags, the exit code (`null` when killed by signal), the session
reference passed to `--resume` (if any), and the captured text buffers. -/
structure RunObservation where
  permissionDenied : Option (ApprovalActionType × String)
  forceSkipPermissions : Bool
  killedBySilence : Bool
  killedByHardTimeout : Bool
  killedByBudget : Bool
  exitCode : Option Int
  sessionUsed : Option String
  assistantText : String
  accumulatedRaw : String
  stderrBuffer : String
  toolSummary : List String
  replayActions : List String
  detectedSessionId : Option String
  tokenUsage : Option Int
deriving DecidableEq, Repr

/-- `parsedOutcome.assistantText || accumulatedRaw || stderrBuffer`
(worker.ts line 601). -/
def finalTextOf (o : RunObservation) : String :=
  jsOrElse o.assistantText (jsOrElse o.accumulatedRaw o.stderrBuffer)

/-- `` `${stderrBuffer}\n${finalText}` `` (worker.ts line 604). -/
def combinedOutputOf (o : RunObservation) : String :=
  o.stderrBuffer ++ "\n" ++ finalTextOf o

/-- The branch of `executeClaude` taken after the child exits. -/
inductive RunOutcomeTag
  | needsApproval
  | silenceTimeout
  | timeout
  | budgetExceeded
  | resumeFallback
  | cliError
  | doneTag
deriving DecidableEq, Repr

/-- The guard of the resume-failure rerun (worker.ts lines 603–605):
non-zero exit AND a session reference was passed AND the combined output
looks like a resume failure. -/
def resumeFallbackCond (o : RunObservation) : Bool :=
  decide (o.exitCode.getD 0 ≠ 0) && o.sessionUsed.isSome &&
    looksLikeResumeFailure (combinedOutputOf o)

/-- The guard of the `cli_error` return (worker.ts line 643): non-zero exit
and no captured text. -/
def cliErrorCond (o : RunObservation) : Bool :=
  decide (o.exitCode.getD 0 ≠ 0) && decide ((jsTrim (finalTextOf o)).length = 0)

/-- The post-exit classification chain of `Worker.executeClaude` (worker.ts
lines 560–668), in source order: permission-denied （non-skip）→ silence →
hard timeout → budget → resume-failure rerun → cli_error → done. -/
def classifyOutcome (o : RunObservation) : RunOutcomeTag :=
  if o.permissionDenied.isSome && !o.forceSkipPermissions then RunOutcomeTag.needsApproval
  else if o.killedBySilence then RunOutcomeTag.silenceTimeout
  else if o.killedByHardTimeout then RunOutcomeTag.timeout
  else if o.killedByBudget then RunOutcomeTag.budgetExceeded
  else if resumeFallbackCond o then RunOutcomeTag.resumeFallback
  else if cliErrorCond o then RunOutcomeTag.cliError
  else RunOutcomeTag.doneTag

/-- Classification as the claim words it: identical chain except that the
resume-failure fallback is guarded only by non-zero exit and
resume-failure-looking output, with no requirement that a session reference
was actually passed to `--resume`.  Kept solely for comparison with
`classifyOutcome`. -/
def specClassifyOutcome (o : RunObservation) : RunOutcomeTag :=
  if o.permissionDenied.isSome && !o.forceSkipPermissions then RunOutcomeTag.needsApproval
  else if o.killedBySilence then RunOutcomeTag.silenceTimeout
  else if o.killedByHardTimeout then RunOutcomeTag.timeout
  else if o.killedByBudget then RunOutcomeTag.budgetExceeded
  else if decide (o.exitCode.getD 0 ≠ 0) &&
      looksLikeResumeFailure (combinedOutputOf o) then RunOutcomeTag.resumeFallback
  else if cliErrorCond o then RunOutcomeTag.cliError
  else RunOutcomeTag.doneTag

/-- A run that exited non-zero with resume-failure-looking output but was
spawned WITHOUT `--resume` (no session reference). -/
def fallbackCexObs : RunObservation :=
  { permissionDenied := none, forceSkipPermissions := false,
    killedBySilence := false, killedByHardTimeout := false, killedByBudget := false,
    exitCode := some 1, sessionUsed := none, assistantText := "",
    accumulatedRaw := "unable to resume session", stderrBuffer := "",
    toolSummary := [], replayActions := [], detectedSessionId := none,
    tokenUsage := none }

/-- `fallbackCexObs` with the hard-timeout flag fired. -/
def timeoutObs : RunObservation :=
  { fallbackCexObs with killedByHardTimeout := true }

/-!
### The redactor (src/utils/redact.ts)

`redactSecrets` applies seven global regex replacements and one
entropy-guarded base64 replacement, in source order.  Each regex is embedded
as a matcher `List Char → Option Nat` returning the length of the (greedy,
leftmost) match starting at the head, exactly as the JS engine matches it;
`replaceAll` then implements `String.prototype.replace` with a global
pattern: scan left to right, at each position try the matcher, on a match
emit the replacement and continue after the match, otherwise emit the
character and move on.  JS `\s` is modelled by `isJsSpace` (the ECMAScript
white-space and line-terminator set). -/

/-- JS regex `\s` (ECMAScript WhiteSpace ∪ LineTerminator). -/
def isJsSpace (c : Char) : Bool :=
  c == ' ' || c == '\t' || c == '\n' || c == '\r' || c.toNat == 0xb || c.toNat == 0xc ||
  c.toNat == 0xa0 || c.toNat == 0x1680 ||
  (decide (0x2000 ≤ c.toNat) && decide (c.toNat ≤ 0x200a)) ||
  c.toNat == 0x2028 || c.toNat == 0x2029 || c.toNat == 0x202f || c.toNat == 0x205f ||
  c.toNat == 0x3000 || c.toNat == 0xfeff

/-- JS regex `[a-zA-Z0-9]`. -/
def isAlnum (c : Char) : Bool :=
  c.isAlpha || c.isDigit

/-- JS regex `[A-Za-z0-9+/]` (the base64 block class). -/
def isB64Char (c : Char) : Bool :=
  c.isAlpha || c.isDigit || c == '+' || c == '/'

/-- JS regex `[a-zA-Z0-9._-]` (the Bearer token class). -/
def isTokenChar (c : Char) : Bool :=
  isAlnum c || c == '.' || c == '_' || c == '-'

/-- JS regex `[a-zA-Z0-9-]` (the xoxb token class). -/
def isXoxbChar (c : Char) : Bool :=
  isAlnum c || c == '-'

/-- JS regex `[0-9A-Za-z\-_]` (the AIza key class). -/
def isAIzaChar (c : Char) : Bool :=
  isAlnum c || c == '-' || c == '_'

/-- JS regex `["'\s:=]` (the password separator class). -/
def isSepChar (c : Char) : Bool :=
  c == '"' || c == '\'' || isJsSpace c || c == ':' || c == '='

/-- Length of the maximal run of `p`-characters at the head. -/
def takeWhileCount (p : Char → Bool) : List Char → Nat
  | [] => 0
  | c :: rest => if p c then takeWhileCount p rest + 1 else 0

/-- Case-insensitive literal prefix test (the `i` flag on ASCII literals). -/
def charsHaveHeadCI : List Char → List Char → Bool
  | [], _ => true
  | _ :: _, [] => false
  | a :: as, b :: bs => (Char.toLower a == Char.toLower b) && charsHaveHeadCI as bs

/-- The replacement text. -/
def redactedTxt : List Char := "[REDACTED]".data

/-- Worker for `replaceAll`: with `skip = 0` try the matcher at the head —
on a match of length `k + 1` emit the replacement, consume the head and
remember to skip the `k` remaining matched characters; with `skip > 0` just
consume.  Structured this way the recursion is structural in the text. -/
def replaceAllAux (m : List Char → Option Nat) (repl : List Char → List Char) :
    Nat → List Char → List Char
  | _, [] => []
  | 0, c :: rest =>
    match m (c :: rest) with
    | some (k + 1) => repl ((c :: rest).take (k + 1)) ++ replaceAllAux m repl k rest
    | _ => c :: replaceAllAux m repl 0 rest
  | skip + 1, _ :: rest => replaceAllAux m repl skip rest

/-- `String.prototype.replace` with a global pattern: leftmost scan, greedy
matcher at each position, replacement computed from the matched slice, the
scan resuming after each match. -/
def replaceAll (m : List Char → Option Nat) (repl : List Char → List Char)
    (s : List Char) : List Char :=
  replaceAllAux m repl 0 s

/-- `/sk-[a-zA-Z0-9]{20,}/g`. -/
def matchSk (s : List Char) : Option Nat :=
  if charsHaveHead "sk-".data s then
    let run := takeWhileCount isAlnum (s.drop 3)
    if 20 ≤ run then some (3 + run) else none
  else none

/-- `/ghp_[a-zA-Z0-9]+/g`. -/
def matchGhp (s : List Char) : Option Nat :=
  if charsHaveHead "ghp_".data s then
    let run := takeWhileCount isAlnum (s.drop 4)
    if 1 ≤ run then some (4 + run) else none
  else none

/-- `/xoxb-[a-zA-Z0-9-]+/g`. -/
def matchXoxb (s : List Char) : Option Nat :=
  if charsHaveHead "xoxb-".data s then
    let run := takeWhileCount isXoxbChar (s.drop 5)
    if 1 ≤ run then some (5 + run) else none
  else none

/-- `/Bearer\s+[a-zA-Z0-9._-]+/gi`: the literal, one-or-more whitespace,
one-or-more token characters; the two classes are disjoint, so greedy
matching needs no backtracking. -/
def matchBearer (s : List Char) : Option Nat :=
  if charsHaveHeadCI "bearer".data s then
    let w := takeWhileCount isJsSpace (s.drop 6)
    if 1 ≤ w then
      let t := takeWhileCount isTokenChar (s.drop (6 + w))
      if 1 ≤ t then some (6 + w + t) else none
    else none
  else none

/-- `/ANTHROPIC_API_KEY\s*=\s*\S+/gi`: after the literal, the maximal
whitespace run must be followed by `=` (whitespace never matches `=`, so no
backtracking), then maximal whitespace, then at least one non-space
character; after a maximal whitespace run只 the end of input can make `\S+`
fail, and shortening the run cannot help. -/
def matchAnthropic (s : List Char) : Option Nat :=
  if charsHaveHeadCI "anthropic_api_key".data s then
    let w1 := takeWhileCount isJsSpace (s.drop 17)
    match s.drop (17 + w1) with
    | '=' :: rest =>
      let w2 := takeWhileCount isJsSpace rest
      let t := takeWhileCount (fun c => !isJsSpace c) (rest.drop w2)
      if 1 ≤ t then some (17 + w1 + 1 + w2 + t) else none
    | _ => none
  else none

/-- Largest index of a non-space character in the list. -/
def lastNonSpaceIdxAux : List Char → Nat → Option Nat → Option Nat
  | [], _, acc => acc
  | c :: rest, i, acc =>
    lastNonSpaceIdxAux rest (i + 1) (if !isJsSpace c then some i else acc)

/-- Largest index of a non-space character in the list. -/
def lastNonSpaceIdx (l : List Char) : Option Nat :=
  lastNonSpaceIdxAux l 0 none

/-- `/password["'\s:=]+\S+/gi`.  The separator class contains the
whitespace characters, so after the maximal separator run `S` the next
character (if any) is non-space and `\S+` just takes the maximal non-space
run.  At end of input the engine backtracks the separator count: the match
succeeds iff some `S[k]` with `k ≥ 1` is non-space, the largest such `k`
wins, and `\S+` then takes exactly that one character (everything after it
in `S` is whitespace). -/
def matchPassword (s : List Char) : Option Nat :=
  if charsHaveHeadCI "password".data s then
    let m := takeWhileCount isSepChar (s.drop 8)
    if 1 ≤ m then
      match s.drop (8 + m) with
      | [] =>
        match lastNonSpaceIdx ((s.drop 9).take (m - 1)) with
        | some j => some (8 + (j + 1) + 1)
        | none => none
      | rest =>
        let t := takeWhileCount (fun c => !isJsSpace c) rest
        if 1 ≤ t then some (8 + m + t) else none
    else none
  else none

/-- `/AIza[0-9A-Za-z\-_]{35}/g`: the literal followed by exactly 35 class
characters. -/
def matchAIza (s : List Char) : Option Nat :=
  if charsHaveHead "AIza".data s then
    let run := takeWhileCount isAIzaChar (s.drop 4)
    if 35 ≤ run then some (4 + 35) else none
  else none

/-- `/(?:[A-Za-z0-9+/]{40,}={0,2})/g`: a base64 run of at least 40
characters plus up to two `=` padders. -/
def matchB64 (s : List Char) : Option Nat :=
  let run := takeWhileCount isB64Char s
  if 40 ≤ run then
    let eqRun := min 2 (takeWhileCount (fun c => c == '=') (s.drop run))
    some (run + eqRun)
  else none

/-- `looksHighEntropy` (redact.ts): at least 12 distinct characters. -/
def uniqChars : List Char → List Char → List Char
  | [], seen => seen
  | c :: rest, seen =>
    uniqChars rest (if seen.contains c then seen else c :: seen)

/-- `looksHighEntropy` (redact.ts): at least 12 distinct characters. -/
def looksHighEntropy (l : List Char) : Bool :=
  12 ≤ (uniqChars l []).length

/-- The constant `[REDACTED]` replacement of the seven plain patterns. -/
def constRedacted (_ : List Char) : List Char := redactedTxt

/-- The entropy-guarded replacement of the base64 pattern. -/
def b64Repl (m : List Char) : List Char :=
  if looksHighEntropy m then redactedTxt else m

/-- `redactSecrets` (redact.ts) on character lists: the seven patterns in
source order, then the base64 block pass. -/
def redactSecretsChars (s : List Char) : List Char :=
  let s1 := replaceAll matchSk constRedacted s
  let s2 := replaceAll matchGhp constRedacted s1
  let s3 := replaceAll matchXoxb constRedacted s2
  let s4 := replaceAll matchBearer constRedacted s3
  let s5 := replaceAll matchAnthropic constRedacted s4
  let s6 := replaceAll matchPassword constRedacted s5
  let s7 := replaceAll matchAIza constRedacted s6
  replaceAll matchB64 b64Repl s7

/-- `redactSecrets` (redact.ts). -/
def redactSecrets (s : String) : String :=
  String.mk (redactSecretsChars s.data)

/-!
### A model of `JSON.parse` and the summarizer (src/core/summarizer.ts)

`JSON.parse` is a platform builtin; it is modelled by a small fuelled
recursive-descent parser producing the JSON value tree (numbers keep their
integer part — the sources only ever read integral token counts).  A parse
returning `none` corresponds to `JSON.parse` throwing. -/

/-- A parsed JSON value. -/
inductive Json where
  | null
  | bool (b : Bool)
  | num (n : Int)
  | str (s : String)
  | arr (xs : List Json)
  | obj (fields : List (String × Json))

/-- JSON insignificant whitespace. -/
def skipJsonWs : List Char → List Char
  | [] => []
  | c :: rest =>
    if c == ' ' || c == '\t' || c == '\n' || c == '\r' then skipJsonWs rest else c :: rest

/-- One hex digit, by code point: `0`-`9`, then the two letter ranges. -/
def hexDigitVal (c : Char) : Option Nat :=
  let n := c.toNat
  if 48 ≤ n ∧ n ≤ 57 then some (n - 48)
  else if 97 ≤ n ∧ n ≤ 102 then some (n - 87)
  else if 65 ≤ n ∧ n ≤ 70 then some (n - 55)
  else none

/-- JSON string body after the opening quote; control characters and bad
escapes make `JSON.parse` throw. -/
def parseJsonStringAux : Nat → List Char → List Char → Option (String × List Char)
  | 0, _, _ => none
  | fuel + 1, acc, cs =>
    match cs with
    | [] => none
    | '"' :: rest => some (String.mk acc.reverse, rest)
    | '\\' :: e :: rest =>
      if e == '"' then parseJsonStringAux fuel ('"' :: acc) rest
      else if e == '\\' then parseJsonStringAux fuel ('\\' :: acc) rest
      else if e == '/' then parseJsonStringAux fuel ('/' :: acc) rest
      else if e == 'n' then parseJsonStringAux fuel ('\n' :: acc) rest
      else if e == 't' then parseJsonStringAux fuel ('\t' :: acc) rest
      else if e == 'r' then parseJsonStringAux fuel ('\r' :: acc) rest
      else if e == 'b' then parseJsonStringAux fuel (Char.ofNat 8 :: acc) rest
      else if e == 'f' then parseJsonStringAux fuel (Char.ofNat 12 :: acc) rest
      else if e == 'u' then
        match rest with
        | h1 :: h2 :: h3 :: h4 :: rest' =>
          match hexDigitVal h1, hexDigitVal h2, hexDigitVal h3, hexDigitVal h4 with
          | some a, some b, some c, some d =>
            parseJsonStringAux fuel (Char.ofNat (((a * 16 + b) * 16 + c) * 16 + d) :: acc) rest'
          | _, _, _, _ => none
        | _ => none
      else none
    | c :: rest =>
      if c.toNat < 0x20 then none else parseJsonStringAux fuel (c :: acc) rest

/-- Digit run value. -/
def digitsVal : List Char → Nat → Nat
  | [], acc => acc
  | c :: rest, acc => digitsVal rest (acc * 10 + (c.toNat - '0'.toNat))

/-- JSON number: optional sign, digits, optional fraction and exponent
(consumed; the value keeps the integer part). -/
def parseJsonNumber (cs : List Char) : Option (Json × List Char) :=
  let (neg, cs1) := match cs with
    | '-' :: rest => (true, rest)
    | _ => (false, cs)
  let dn := takeWhileCount Char.isDigit cs1
  if dn = 0 then none
  else
    let intPart := digitsVal (cs1.take dn) 0
    let cs2 := cs1.drop dn
    let cs3 := match cs2 with
      | '.' :: rest =>
        let fn := takeWhileCount Char.isDigit rest
        if fn = 0 then cs2 else rest.drop fn
      | _ => cs2
    let cs4 := match cs3 with
      | e :: rest =>
        if e == 'e' || e == 'E' then
          let rest' := match rest with
            | s :: r => if s == '+' || s == '-' then r else rest
            | [] => rest
          let en := takeWhileCount Char.isDigit rest'
          if en = 0 then cs3 else rest'.drop en
        else cs3
      | [] => cs3
    some (Json.num (if neg then -(intPart : Int) else (intPart : Int)), cs4)

mutual

/-- JSON value. -/
def parseJsonValue : Nat → List Char → Option (Json × List Char)
  | 0, _ => none
  | fuel + 1, cs =>
    match skipJsonWs cs with
    | [] => none
    | c :: rest =>
      if c == 'n' then
        if charsHaveHead "ull".data rest then some (Json.null, rest.drop 3) else none
      else if c == 't' then
        if charsHaveHead "rue".data rest then some (Json.bool true, rest.drop 3) else none
      else if c == 'f' then
        if charsHaveHead "alse".data rest then some (Json.bool false, rest.drop 4) else none
      else if c == '"' then
        match parseJsonStringAux rest.length [] rest with
        | some (s, rest') => some (Json.str s, rest')
        | none => none
      else if c == '[' then
        match skipJsonWs rest with
        | ']' :: rest' => some (Json.arr [], rest')
        | rest' =>
          match parseJsonArrItems fuel rest' with
          | some (xs, rest'') => some (Json.arr xs, rest'')
          | none => none
      else if c == '\x7b' then
        match skipJsonWs rest with
        | '\x7d' :: rest' => some (Json.obj [], rest')
        | rest' =>
          match parseJsonObjItems fuel rest' with
          | some (fs, rest'') => some (Json.obj fs, rest'')
          | none => none
      else if c == '-' || c.isDigit then parseJsonNumber (c :: rest)
      else none

/-- Comma-separated array items up to `]`. -/
def parseJsonArrItems : Nat → List Char → Option (List Json × List Char)
  | 0, _ => none
  | fuel + 1, cs =>
    match parseJsonValue fuel cs with
    | none => none
    | some (v, rest) =>
      match skipJsonWs rest with
      | ',' :: rest' =>
        match parseJsonArrItems fuel rest' with
        | some (xs, rest'') => some (v :: xs, rest'')
        | none => none
      | ']' :: rest' => some ([v], rest')
      | _ => none

/-- Comma-separated `"key": value` pairs up to the closing brace. -/
def parseJsonObjItems : Nat → List Char → Option (List (String × Json) × List Char)
  | 0, _ => none
  | fuel + 1, cs =>
    match skipJsonWs cs with
    | '"' :: rest =>
      match parseJsonStringAux rest.length [] rest with
      | none => none
      | some (key, rest') =>
        match skipJsonWs rest' with
        | ':' :: rest'' =>
          match parseJsonValue fuel rest'' with
          | none => none
          | some (v, rest3) =>
            match skipJsonWs rest3 with
            | ',' :: rest4 =>
              match parseJsonObjItems fuel rest4 with
              | some (fs, rest5) => some ((key, v) :: fs, rest5)
              | none => none
            | '\x7d' :: rest4 => some ([(key, v)], rest4)
            | _ => none
        | _ => none
    | _ => none

end

/-- `JSON.parse`: parse one value and require only whitespace after it. -/
def jsonParse (s : String) : Option Json :=
  match parseJsonValue (s.data.length + 1) s.data with
  | some (v, rest) => if (skipJsonWs rest).isEmpty then some v else none
  | none => none

/-- JS property read on a parsed value: only objects have fields, and a
duplicate key keeps the last occurrence, as `JSON.parse` does. -/
def jsonGet (j : Json) (key : String) : Option Json :=
  match j with
  | Json.obj fs => ((fs.filter fun p => p.1 == key).getLast?).map fun p => p.2
  | _ => none

/-- Split on newline characters, modelling JS `split("\n")`. -/
def splitCharsOnNl : List Char → List (List Char)
  | [] => [[]]
  | c :: rest =>
    match splitCharsOnNl rest with
    | [] => [[]]
    | grp :: rest' => if c == '\n' then [] :: grp :: rest' else (c :: grp) :: rest'

/-- Split on newline characters, modelling JS `split("\n")`. -/
def splitOnNl (s : String) : List String :=
  (splitCharsOnNl s.data).map String.mk

/-- JS `String.prototype.startsWith`. -/
def strStarts (s pre : String) : Bool :=
  charsHaveHead pre.data s.data

/-- JS `Array.prototype.join(sep)`. -/
def joinWithSep (sep : String) : List String → String
  | [] => ""
  | [x] => x
  | x :: rest => x ++ sep ++ joinWithSep sep rest

/-- JS `slice(0, n)`. -/
def jsSlice (s : String) (n : Nat) : String :=
  String.mk (s.data.take n)

/-- The texts one line of raw stream output contributes in
`Summarizer.extractReadableText` (summarizer.ts lines 131–156): parse the
line as JSON; system lines and hook-subtype lines are skipped; a string
`result` field and assistant `content` (string, or text blocks) are
collected; a non-string non-null `subtype` raises a TypeError caught by the
same catch as a parse failure; unparsable lines are kept verbatim unless
they start with a brace. -/
def extractLineTexts (line : String) : List String :=
  let notJson : List String :=
    if strStarts line "\x7b" then [] else [line]
  match jsonParse line with
  | none => notJson
  | some parsed =>
    if (match jsonGet parsed "type" with
        | some (Json.str t) => t == "system"
        | _ => false) then []
    else
      match jsonGet parsed "subtype" with
      | some Json.null => extractLineTextsBody parsed
      | some (Json.str sub) =>
        if strStarts sub "hook" then [] else extractLineTextsBody parsed
      | some _ => notJson
      | none => extractLineTextsBody parsed
where
  /-- The `result` and assistant-content collection of the loop body. -/
  extractLineTextsBody (parsed : Json) : List String :=
    (match jsonGet parsed "result" with
     | some (Json.str s) => [s]
     | _ => []) ++
    (let isAssistant :=
      (match jsonGet parsed "role" with
       | some (Json.str r) => r == "assistant"
       | _ => false) ||
      (match jsonGet parsed "type" with
       | some (Json.str t) => t == "assistant"
       | _ => false)
     let contentTruthy :=
      match jsonGet parsed "content" with
      | none => false
      | some Json.null => false
      | some (Json.bool b) => b
      | some (Json.num n) => n != 0
      | some (Json.str s) => s != ""
      | some (Json.arr _) => true
      | some (Json.obj _) => true
     if isAssistant && contentTruthy then
       match jsonGet parsed "content" with
       | some (Json.str s) => [s]
       | some (Json.arr blocks) =>
         blocks.filterMap fun b =>
           if (match jsonGet b "type" with
               | some (Json.str t) => t == "text"
               | _ => false) then
             match jsonGet b "text" with
             | some (Json.str t) => if t != "" then some t else none
             | _ => none
           else none
       | _ => []
     else [])

/-- `Summarizer.extractReadableText` (summarizer.ts): split the raw stream
into lines, drop empty lines, collect per-line texts, join and trim. -/
def extractReadableText (raw : String) : String :=
  let lines := (splitOnNl raw).filter fun l => l ≠ ""
  jsTrim (joinWithSep "\n" ((lines.map extractLineTexts).flatten))

/-- `SummarizerInput` from types.ts as the summarizer reads it. -/
structure SummarizerInput where
  rawText : String
  assistantText : Option String
  toolSummary : List String
  tokensUsed : Int
  tokenBudget : Int
  replayActions : List String
deriving Repr

/-- `Summarizer.fallback` (summarizer.ts lines 118–124). -/
def summarizeFallback (raw : String) : String :=
  let displayText := extractReadableText raw
  if displayText ≠ "" then jsSlice displayText 4000
  else "(No readable output captured)"

/-- `Summarizer.summarize` (summarizer.ts lines 65–116).  The Anthropic
call is external: `aiAvailable` stands for `enabled && anthropic &&
bucket.allow()`, and `aiReply` is the model's joined text response (`none`
when the call throws). -/
def summarize (aiAvailable : Bool) (aiReply : Option String)
    (input : SummarizerInput) : String :=
  let redactedRaw := redactSecrets input.rawText
  let assistantText := jsTrim (input.assistantText.getD "")
  if assistantText ≠ "" then jsSlice (redactSecrets assistantText) 4000
  else
    let extracted := extractReadableText redactedRaw
    if extracted ≠ "" then jsSlice (redactSecrets extracted) 4000
    else if aiAvailable then
      match aiReply with
      | some text =>
        let t := jsTrim text
        if t ≠ "" then redactSecrets t else summarizeFallback redactedRaw
      | none => summarizeFallback redactedRaw
    else summarizeFallback redactedRaw

/-- The summarizer input the engine builds for a successful replay run with
clean assistant text: replay actions recorded, raw text readable. -/
def replaySummarizerInput : SummarizerInput :=
  { rawText := "done.", assistantText := none, toolSummary := [],
    tokensUsed := 10, tokenBudget := 1000,
    replayActions := ["Bash: rm -rf /tmp/x"] }

/-!
### The supervisor pipeline (src/core/worker.ts, `executeClaude`)

`executeClaude` is embedded as a pure pipeline: spawning, stream reading
and the monitors are summarised by a `RunObservation` per spawn (one for
the first run, one for the possible resume-failure rerun), with the fields
the code derives itself — the session reference passed to `--resume` and
`ctx.forceSkipPermissions` — overridden from the model state.  `new
Date(ts).toISOString()` is a platform builtin and is taken as a parameter
`isoOfTs`. -/

/-- `SessionRecord` from types.ts (one row of the `sessions` table). -/
structure SessionRecord where
  threadId : String
  projectAlias : String
  sessionId : String
  lastUsed : Int
deriving DecidableEq, Repr

/-- `SessionStore.get` (session.ts). -/
def sessionsGet (ss : List SessionRecord) (threadId : String) : Option SessionRecord :=
  ss.find? fun s => s.threadId == threadId

/-- JS `replace(/\s+/g, " ")`: collapse every whitespace run to one space. -/
def collapseWs : List Char → List Char
  | [] => []
  | c :: rest =>
    if isJsSpace c && ((rest.head?.map isJsSpace).getD false) then collapseWs rest
    else (if isJsSpace c then ' ' else c) :: collapseWs rest

/-- The DB text of a task status. -/
def statusText : TaskStatus → String
  | TaskStatus.queued => "queued"
  | TaskStatus.running => "running"
  | TaskStatus.needsApproval => "needs_approval"
  | TaskStatus.done => "done"
  | TaskStatus.failed => "failed"

/-- `TaskQueue.getByThreadId` (queue.ts): rows of the thread ordered by
`created_at DESC`, limited. -/
def getByThreadId (ts : TaskTable) (threadId : String) (limit : Nat) : List TaskRecord :=
  (List.insertionSort (fun a b => b.createdAt ≤ a.createdAt)
    (ts.filter fun r => r.threadId == threadId)).take limit

/-- `Worker.buildThreadContextSummary` (worker.ts lines 749–767): up to the
last three completed-or-failed tasks of the thread, each reduced to
`"<ISO ts> <status>: <=160-char redacted single-line detail>"`, joined with
`" | "`, truncated to 700 characters. -/
def buildThreadContextSummary (tasks : TaskTable) (threadId : String)
    (isoOfTs : Int → String) : String :=
  let history := ((getByThreadId tasks threadId 6).filter fun t =>
    t.status == TaskStatus.done || t.status == TaskStatus.failed).take 3
  if history.isEmpty then "unavailable"
  else
    let lines := history.map fun t =>
      let detail := if t.status == TaskStatus.done then t.result else t.error
      let compact := jsSlice (redactSecrets (jsTrim (String.mk
        (collapseWs (detail.getD "no detail").data)))) 160
      isoOfTs t.createdAt ++ " " ++ statusText t.status ++ ": " ++ compact
    jsSlice (joinWithSep " | " lines) 700

/-- `Worker.buildResumeFallbackPrompt` (worker.ts lines 744–747). -/
def buildResumeFallbackPrompt (tasks : TaskTable) (threadId originalPrompt : String)
    (isoOfTs : Int → String) : String :=
  "[Context: continuing from previous task in this thread. Previous task summary: " ++
    buildThreadContextSummary tasks threadId isoOfTs ++ "] " ++ originalPrompt

/-- `Worker.buildPrompt` (worker.ts lines 722–742): the scoped replay
prompt in replay mode; the thread-history fallback prompt for a
`continue_session` task with no session record; the task's own prompt
otherwise. -/
def buildPromptModel (sessions : List SessionRecord) (tasks : TaskTable)
    (task : TaskRecord) (replayMode : Bool)
    (replayApprovedAction replayCheckpointSummary : Option String)
    (isoOfTs : Int → String) : String :=
  if replayMode then
    joinWithSep "\n" (List.filter (fun l => l ≠ "")
      ["[APPROVED ACTION ONLY] The user approved: " ++
         (replayApprovedAction.getD "sensitive action") ++ ".",
       (match replayCheckpointSummary with
        | some s => if s ≠ "" then "Previous progress: " ++ s else ""
        | none => ""),
       "Perform the approved action, then continue the original task: " ++ task.prompt])
  else if task.continueSession then
    match sessionsGet sessions task.threadId with
    | none => buildResumeFallbackPrompt tasks task.threadId task.prompt isoOfTs
    | some _ => task.prompt
  else task.prompt

/-- One spawn of the Agent CLI: whether `--resume` was passed and with
which reference, and the `-p` prompt. -/
structure RunDescriptor where
  resumed : Option String
  prompt : String
deriving DecidableEq, Repr

/-- `TaskResult` from types.ts as `executeClaude` builds it. -/
structure TaskResultModel where
  status : TaskStatus
  summary : String
  tokensUsed : Int
  sessionId : Option String
  replayActions : List String
  errorCode : Option String
  approvalActionType : Option ApprovalActionType
deriving DecidableEq, Repr

/-- `parsedOutcome.tokenUsage ?? estimatedTokens` with the byte-estimate
`floor(raw.length / 4)` (worker.ts line 558). -/
def tokensUsedOf (o : RunObservation) : Int :=
  o.tokenUsage.getD ((o.accumulatedRaw.data.length : Int) / 4)

/-- The `needs_approval` return of `executeClaude` (worker.ts 561–569). -/
def needsApprovalResult (o : RunObservation) : TaskResultModel :=
  { status := TaskStatus.needsApproval,
    summary := (o.permissionDenied.map Prod.snd).getD "",
    tokensUsed := tokensUsedOf o, sessionId := none,
    replayActions := o.replayActions, errorCode := none,
    approvalActionType := o.permissionDenied.map Prod.fst }

/-- A `failed` return of `executeClaude` with a fixed message. -/
def failedResult (msg code : String) (o : RunObservation) : TaskResultModel :=
  { status := TaskStatus.failed, summary := msg, tokensUsed := tokensUsedOf o,
    sessionId := none, replayActions := o.replayActions,
    errorCode := some code, approvalActionType := none }

/-- The classification-and-return chain of `executeClaude` after the child
exits, minus the resume-failure branch (worker.ts 560–599 and 643–668):
permission-denied (non-skip) → silence → hard timeout → budget → cli_error
→ done-with-summarizer. -/
def runResultNoFallback (aiAvailable : Bool) (aiReply : Option String)
    (tokenBudget : Int) (o : RunObservation) : TaskResultModel :=
  if o.permissionDenied.isSome && !o.forceSkipPermissions then needsApprovalResult o
  else if o.killedBySilence then
    failedResult "Process went silent and was terminated." "silence_timeout" o
  else if o.killedByHardTimeout then
    failedResult "Task timed out and was terminated." "timeout" o
  else if o.killedByBudget then
    failedResult ("Token budget exceeded (" ++ toString tokenBudget ++ ").")
      "budget_exceeded" o
  else if cliErrorCond o then
    { status := TaskStatus.failed,
      summary := jsOrElse (jsSlice (redactSecrets o.stderrBuffer) 500)
        "Claude Code exited with an error.",
      tokensUsed := tokensUsedOf o, sessionId := none,
      replayActions := o.replayActions, errorCode := some "cli_error",
      approvalActionType := none }
  else
    { status := TaskStatus.done,
      summary := summarize aiAvailable aiReply
        { rawText := finalTextOf o, assistantText := none,
          toolSummary := o.toolSummary, tokensUsed := tokensUsedOf o,
          tokenBudget := tokenBudget, replayActions := o.replayActions },
      tokensUsed := tokensUsedOf o, sessionId := o.detectedSessionId,
      replayActions := o.replayActions, errorCode := none,
      approvalActionType := none }

/-- The notice prefixed to the rerun summary (worker.ts 634–637). -/
def resumeNotice (continueSession : Bool) : String :=
  if continueSession then
    "Couldn't resume previous session; started fresh with thread context summary."
  else
    "Couldn't resume previous session for replay; continued with checkpoint context."

/-- `Worker.executeClaude` (worker.ts lines 400–668) as a pipeline: resolve
the session, build the prompt and spawn (first `RunDescriptor`); after the
exit run the classification chain; in the resume-failure branch rebuild the
task (for `continue_session` tasks: fresh prompt prefixed with the thread
history summary), rerun once with resume disabled (second `RunDescriptor`,
whose own fallback branch can never fire since no session is passed), and
prefix the rerun's done/failed summary with the `resumeNotice`.  Returns
the spawns performed and the task result. -/
def executeClaudeModel (aiAvailable : Bool) (aiReply : Option String)
    (sessions : List SessionRecord) (tasks : TaskTable) (task : TaskRecord)
    (replayMode forceSkip allowResume : Bool)
    (replayApprovedAction replayCheckpointSummary : Option String)
    (isoOfTs : Int → String) (tokenBudget : Int) (obs1 obs2 : RunObservation) :
    List RunDescriptor × TaskResultModel :=
  let session := if allowResume && (task.continueSession || replayMode)
                 then sessionsGet sessions task.threadId else none
  let resumedRef := match session with
    | some s => if s.sessionId ≠ "" then some s.sessionId else none
    | none => none
  let prompt := buildPromptModel sessions tasks task replayMode
    replayApprovedAction replayCheckpointSummary isoOfTs
  let run1 : RunDescriptor := ⟨resumedRef, prompt⟩
  let o1 : RunObservation :=
    { obs1 with sessionUsed := resumedRef, forceSkipPermissions := forceSkip }
  if o1.permissionDenied.isSome && !o1.forceSkipPermissions then
    ([run1], needsApprovalResult o1)
  else if o1.killedBySilence then
    ([run1], failedResult "Process went silent and was terminated." "silence_timeout" o1)
  else if o1.killedByHardTimeout then
    ([run1], failedResult "Task timed out and was terminated." "timeout" o1)
  else if o1.killedByBudget then
    ([run1], failedResult ("Token budget exceeded (" ++ toString tokenBudget ++ ").")
      "budget_exceeded" o1)
  else if resumeFallbackCond o1 then
    let fallbackTask := if task.continueSession then
        { task with
          continueSession := false
          prompt := buildResumeFallbackPrompt tasks task.threadId task.prompt isoOfTs }
      else task
    let prompt2 := buildPromptModel sessions tasks fallbackTask replayMode
      replayApprovedAction replayCheckpointSummary isoOfTs
    let o2 : RunObservation :=
      { obs2 with sessionUsed := none, forceSkipPermissions := forceSkip }
    let rerun := runResultNoFallback aiAvailable aiReply tokenBudget o2
    let rerun' := if rerun.status == TaskStatus.done || rerun.status == TaskStatus.failed then
        { rerun with summary := resumeNotice task.continueSession ++ "\n\n" ++ rerun.summary }
      else rerun
    ([run1, ⟨none, prompt2⟩], rerun')
  else ([run1], runResultNoFallback aiAvailable aiReply tokenBudget o1)

/-- A `continue_session` task in thread `t7`. -/
def taskC7 : TaskRecord :=
  { id := "C", projectAlias := "p", projectPath := "/tmp/p",
    prompt := "continue please", threadId := "t7", adapter := "web",
    continueSession := true, status := TaskStatus.running, result := none,
    error := none, tokensUsed := 0, tokenBudget := none, workerPid := none,
    workerPidStart := none, checkpoint := none, createdAt := 10,
    startedAt := some 11, completedAt := none }

/-- A clean successful run: exit 0, assistant text captured. -/
def obsOkC7 : RunObservation :=
  { permissionDenied := none, forceSkipPermissions := false,
    killedBySilence := false, killedByHardTimeout := false, killedByBudget := false,
    exitCode := some 0, sessionUsed := none, assistantText := "All done",
    accumulatedRaw := "", stderrBuffer := "", toolSummary := [],
    replayActions := [], detectedSessionId := none, tokenUsage := none }

/-- No pattern match starts at any position of the text: every suffix is
matchless.  For the constant-replacement patterns this makes the pass the
identity. -/
def NoM (m : List Char → Option Nat) (s : List Char) : Prop :=
  ∀ t, t <:+ s → m t = none

/-- `t` agrees with `u` except that from some position on `t` carries an
inserted `[REDACTED]` block: either the texts are equal, or they share a
prefix and then `t` has `[` where `u` has some non-space character (the
head of the replaced match). -/
def AgreesUB (t u : List Char) : Prop :=
  t = u ∨ ∃ w t2 c u2, t = w ++ '[' :: t2 ∧ u = w ++ c :: u2 ∧ isJsSpace c = false

/-- Every base64-block match starting anywhere in the text has a
low-entropy matched slice, so the guarded replacement keeps it. -/
def NoHigh (s : List Char) : Prop :=
  ∀ t, t <:+ s → ∀ k, matchB64 t = some k → looksHighEntropy (t.take k) = false

/-- The replacement returns every matched slice unchanged, at every
position of the text. -/
def AllId (m : List Char → Option Nat) (repl : List Char → List Char)
    (s : List Char) : Prop :=
  ∀ t, t <:+ s → ∀ k, m t = some k → repl (t.take k) = t.take k

/-! ## Theorems -/

theorem queuedCount_append (ts₁ ts₂ : TaskTable) (p : String) :
    queuedCount (ts₁ ++ ts₂) p = queuedCount ts₁ p + queuedCount ts₂ p := by
  simp [queuedCount, List.filter_append]

/-- C3.  Enqueue cap: with the project's queued count at or above the cap,
`enqueue` fails with `queue_full` and inserts nothing; below the cap it
inserts exactly one `queued` task stamped with the creation timestamp; and a
successful enqueue never pushes any project's queued count above the cap.
The count and insert happen back-to-back in the embedding, mirroring the
synchronous single-connection execution of the source. -/
theorem enqueue_cap_spec (cap : Nat) (ts : TaskTable) (input : EnqueueTaskInput) (now : Int) :
    (queuedCount ts input.projectAlias ≥ cap →
      enqueue cap ts input now = Except.error "queue_full") ∧
    (queuedCount ts input.projectAlias < cap →
      enqueue cap ts input now =
        Except.ok (ts ++ [insertedTask input now], insertedTask input now)) ∧
    (insertedTask input now).status = TaskStatus.queued ∧
    (insertedTask input now).createdAt = now ∧
    (∀ ts' row, enqueue cap ts input now = Except.ok (ts', row) →
      ∀ p, queuedCount ts p ≤ cap → queuedCount ts' p ≤ cap) := by
  refine ⟨fun h => ?_, fun h => ?_, rfl, rfl, fun ts' row h p hle => ?_⟩
  · simp [enqueue, h]
  · simp [enqueue, Nat.not_le.mpr h]
  · unfold enqueue at h
    split at h
    · exact absurd h (by simp)
    · rename_i hlt
      have hts' : ts' = ts ++ [insertedTask input now] := by
        injection h with h'
        exact (congrArg Prod.fst h').symm
      subst hts'
      rw [queuedCount_append]
      by_cases hp : input.projectAlias = p
      · have h1 : queuedCount [insertedTask input now] p = 1 := by
          simp [queuedCount, insertedTask, hp]
        rw [h1]
        have : queuedCount ts p < cap := by
          rw [← hp]; exact Nat.lt_of_not_le hlt
        omega
      · have h0 : queuedCount [insertedTask input now] p = 0 := by
          simp [queuedCount, insertedTask]
          intro hcontra
          exact absurd hcontra hp
        rw [h0]
        omega

/-- C3 witness: with the cap already reached the enqueue of `B` fails. -/
theorem enqueue_cap_spec_witness :
    enqueue 1 [insertedTask inputA 0] inputB 7 = Except.error "queue_full" :=
  (enqueue_cap_spec 1 [insertedTask inputA 0] inputB 7).1 (by decide)

/-- C4 counterexample: `TaskQueue.cancel` does not clear the worker-pid
columns, so cancelling a running task that holds its pid leaves a `failed`
row with `worker_pid` still set — the invariant `worker_pid set → status =
running` does not survive `cancel`. -/
theorem cancel_breaks_pid_invariant :
    pidInvariant [runningPidTask] = true ∧
    pidInvariant (cancel [runningPidTask] "A" 5).2 = false := by decide

/-- C4 (amended).  The worker-pid invariant is preserved by `markFailed`,
`markDone` and `clearWorkerPid` unconditionally, by `setWorkerPid` when the
targeted task is running, and by `cancel` only when the cancelled task holds
no worker pid (the code relies on the worker's post-exit handler to clear the
pid of a cancelled run). -/
theorem pid_invariant_ops (ts : TaskTable) (taskId err summary : String)
    (pid pidStart now : Int) (h : pidInvariant ts = true) :
    pidInvariant (markFailed ts taskId err now) = true ∧
    pidInvariant (markDone ts taskId summary now) = true ∧
    pidInvariant (clearWorkerPid ts taskId) = true ∧
    ((∀ r ∈ ts, r.id = taskId → r.status = TaskStatus.running) →
      pidInvariant (setWorkerPid ts taskId pid pidStart) = true) ∧
    ((∀ r ∈ ts, r.id = taskId → r.workerPid = none) →
      pidInvariant (cancel ts taskId now).2 = true) := by
  simp only [pidInvariant, List.all_eq_true] at h
  refine ⟨?_, ?_, ?_, fun hrun => ?_, fun hnone => ?_⟩
  · simp only [pidInvariant, markFailed, List.all_map, List.all_eq_true, Function.comp]
    intro r hr
    by_cases hid : (r.id == taskId) = true
    · simp [hid]
    · simp only [hid, Bool.false_eq_true, if_false]
      exact h r hr
  · simp only [pidInvariant, markDone, List.all_map, List.all_eq_true, Function.comp]
    intro r hr
    by_cases hid : (r.id == taskId) = true
    · simp [hid]
    · simp only [hid, Bool.false_eq_true, if_false]
      exact h r hr
  · simp only [pidInvariant, clearWorkerPid, List.all_map, List.all_eq_true, Function.comp]
    intro r hr
    by_cases hid : (r.id == taskId) = true
    · simp [hid]
    · simp only [hid, Bool.false_eq_true, if_false]
      exact h r hr
  · simp only [pidInvariant, setWorkerPid, List.all_map, List.all_eq_true, Function.comp]
    intro r hr
    by_cases hid : (r.id == taskId) = true
    · have : r.status = TaskStatus.running := hrun r hr (by simpa using hid)
      simp [hid, this]
    · simp only [hid, Bool.false_eq_true, if_false]
      exact h r hr
  · simp only [cancel, pidInvariant, List.all_map, List.all_eq_true, Function.comp]
    intro r hr
    by_cases hid : (r.id == taskId) = true
    · have hpid : r.workerPid = none := hnone r hr (by simpa using hid)
      by_cases hst : (r.status == TaskStatus.queued || r.status == TaskStatus.running ||
          r.status == TaskStatus.needsApproval) = true
      · simp [hid, hst, hpid]
      · simp only [hid, hst, Bool.and_false, Bool.false_eq_true, if_false]
        exact h r hr
    · simp only [hid, Bool.false_and, Bool.false_eq_true, if_false]
      exact h r hr

/-- C4 amended-claim witness at a concrete store. -/
theorem pid_invariant_ops_witness :
    pidInvariant (markFailed [runningPidTask] "A" "boom" 9) = true :=
  (pid_invariant_ops [runningPidTask] "A" "boom" "ok" 1 1 9 (by decide)).1

/-- C1.  Reachable violation of per-project exclusion: after
`needs_approval` → user cancel → a second task of the same project dequeued →
operator approval of the stale pending approval, the project has two tasks
with status in `{running, needs_approval}` (both `running`), exceeding the
spec's bound of one. -/
theorem cancel_then_approve_breaks_exclusion :
    countActive exclusionScenario.tasks "p" = 2 := by decide

theorem pickOldest_cons_isSome (a : TaskRecord) (rest : List TaskRecord) :
    (pickOldest (a :: rest)).isSome = true := by
  simp only [pickOldest]
  cases pickOldest rest with
  | none => rfl
  | some b =>
    split
    · rfl
    · split <;> rfl

theorem pickOldest_eq_none {l : List TaskRecord} : pickOldest l = none ↔ l = [] := by
  cases l with
  | nil => simp [pickOldest]
  | cons a rest =>
    constructor
    · intro hc
      have := pickOldest_cons_isSome a rest
      rw [hc] at this
      simp at this
    · intro hc
      simp at hc

theorem pickOldest_mem {l : List TaskRecord} {r : TaskRecord}
    (h : pickOldest l = some r) : r ∈ l := by
  induction l with
  | nil => simp [pickOldest] at h
  | cons a rest ih =>
    cases hr : pickOldest rest with
    | none =>
      simp only [pickOldest, hr, Option.some.injEq] at h
      simp [← h]
    | some b =>
      simp only [pickOldest, hr] at h
      split at h
      · simp only [Option.some.injEq] at h
        exact List.mem_cons_of_mem a (ih (h ▸ hr))
      · simp only [Option.some.injEq] at h
        simp [← h]

theorem pickOldest_min {l : List TaskRecord} :
    ∀ {r : TaskRecord}, pickOldest l = some r → ∀ x ∈ l, r.createdAt ≤ x.createdAt := by
  induction l with
  | nil => intro r h; simp [pickOldest] at h
  | cons a rest ih =>
    intro r h
    cases hr : pickOldest rest with
    | none =>
      have hnil : rest = [] := pickOldest_eq_none.mp hr
      simp only [pickOldest, hr, Option.some.injEq] at h
      subst hnil
      intro x hx
      simp only [List.mem_singleton] at hx
      simp [← h, hx]
    | some b =>
      simp only [pickOldest, hr] at h
      intro x hx
      rcases List.mem_cons.mp hx with hxa | hxr
      · split at h
        · rename_i hlt
          simp only [Option.some.injEq] at h
          subst hxa
          exact le_of_lt (h ▸ hlt)
        · simp only [Option.some.injEq] at h
          subst hxa
          simp [← h]
      · split at h
        · simp only [Option.some.injEq] at h
          exact ih (h ▸ hr) x hxr
        · rename_i hlt
          simp only [Option.some.injEq] at h
          have hb := ih hr x hxr
          have hab : a.createdAt ≤ b.createdAt := le_of_not_lt hlt
          rw [← h]
          exact le_trans hab hb

/-- C2.  Dequeue postcondition: `dequeueNext` returns `none` exactly when
every queued row's project is blocked by a row in
`{running, needs_approval}`; and when it returns a task, that task is a
queued row of an unblocked project with minimal `created_at` among all such
rows, returned flipped to `running` with `started_at` stamped, the table
updated at exactly that row.  FIFO start order within a project follows
because earlier-enqueued rows carry smaller `created_at` stamps. -/
theorem dequeueNext_spec (ts : TaskTable) (now : Int) :
    ((dequeueNext ts now).1 = none ↔
      ∀ r ∈ ts, r.status = TaskStatus.queued → projectBlocked ts r.projectAlias = true) ∧
    (∀ t ts', dequeueNext ts now = (some t, ts') →
      ∃ t0, t0 ∈ ts ∧ t0.status = TaskStatus.queued ∧
        projectBlocked ts t0.projectAlias = false ∧
        (∀ u ∈ ts, u.status = TaskStatus.queued → projectBlocked ts u.projectAlias = false →
          t0.createdAt ≤ u.createdAt) ∧
        t = { t0 with status := TaskStatus.running, startedAt := some now } ∧
        ts' = ts.map fun r => if r.id == t0.id
          then { r with status := TaskStatus.running, startedAt := some now } else r) := by
  constructor
  · constructor
    · intro hnone r hr hq
      unfold dequeueNext at hnone
      cases hpick : pickOldest (ts.filter (dequeueCandidate ts)) with
      | some row => rw [hpick] at hnone; simp at hnone
      | none =>
        have hnil : ts.filter (dequeueCandidate ts) = [] := pickOldest_eq_none.mp hpick
        by_contra hb
        have hcand : dequeueCandidate ts r = true := by
          simp only [dequeueCandidate, hq, beq_self_eq_true, Bool.true_and, Bool.not_eq_true']
          exact Bool.eq_false_iff.mpr hb
        have : r ∈ ts.filter (dequeueCandidate ts) := List.mem_filter.mpr ⟨hr, hcand⟩
        rw [hnil] at this
        exact absurd this (List.not_mem_nil r)
    · intro hall
      unfold dequeueNext
      cases hpick : pickOldest (ts.filter (dequeueCandidate ts)) with
      | none => simp
      | some row =>
        have hmem := pickOldest_mem hpick
        have ⟨hrow, hcand⟩ := List.mem_filter.mp hmem
        simp only [dequeueCandidate, Bool.and_eq_true, beq_iff_eq, Bool.not_eq_true'] at hcand
        have := hall row hrow hcand.1
        rw [hcand.2] at this
        exact absurd this (by simp)
  · intro t ts' h
    unfold dequeueNext at h
    cases hpick : pickOldest (ts.filter (dequeueCandidate ts)) with
    | none => rw [hpick] at h; simp at h
    | some row =>
      rw [hpick] at h
      simp only [Prod.mk.injEq, Option.some.injEq] at h
      have hmem := pickOldest_mem hpick
      have ⟨hrow, hcand⟩ := List.mem_filter.mp hmem
      simp only [dequeueCandidate, Bool.and_eq_true, beq_iff_eq, Bool.not_eq_true'] at hcand
      refine ⟨row, hrow, hcand.1, hcand.2, ?_, h.1.symm, h.2.symm⟩
      intro u hu huq hub
      have hucand : dequeueCandidate ts u = true := by
        simp [dequeueCandidate, huq, hub]
      exact pickOldest_min hpick u (List.mem_filter.mpr ⟨hu, hucand⟩)

/-- C2 witness: with the project's only other row running, the queued row is
blocked and `dequeueNext` returns `none`. -/
theorem dequeueNext_spec_witness :
    (dequeueNext [insertedTask inputA 0, runningPidTask] 5).1 = none :=
  (dequeueNext_spec [insertedTask inputA 0, runningPidTask] 5).1.mpr (by decide)

/-- C10.  Resolving a pending approval whose task row is missing: the
approval row is still flipped to its terminal status with resolver and
resolved timestamp set (so no row with its id stays pending), yet the call
returns `false` and leaves tasks, audit log, update dispatches and replay
launches untouched. -/
theorem resolveApproval_missing_task (st : EngineState) (a : ApprovalRecord)
    (approvalId actorId : String) (action : ResolveAction) (now : Int)
    (ha : getApprovalById st.approvals approvalId = some a)
    (hp : a.status = ApprovalStatus.pending)
    (ht : getById st.tasks a.taskId = none) :
    (workerResolveApproval st approvalId actorId action now).1 = false ∧
    (workerResolveApproval st approvalId actorId action now).2.tasks = st.tasks ∧
    (workerResolveApproval st approvalId actorId action now).2.audit = st.audit ∧
    (workerResolveApproval st approvalId actorId action now).2.updates = st.updates ∧
    (workerResolveApproval st approvalId actorId action now).2.replays = st.replays ∧
    (workerResolveApproval st approvalId actorId action now).2.approvals =
      st.approvals.map (fun x =>
        if x.id == approvalId && x.status == ApprovalStatus.pending then
          { x with
            status := if action = ResolveAction.approve then ApprovalStatus.approved
                      else ApprovalStatus.denied,
            resolvedAt := some now, resolvedBy := some actorId }
        else x) ∧
    (∀ x ∈ (workerResolveApproval st approvalId actorId action now).2.approvals,
      x.id = approvalId → x.status ≠ ApprovalStatus.pending) := by
  have ha' : List.find? (fun x => x.id == approvalId) st.approvals = some a := ha
  have hmem : a ∈ st.approvals := List.mem_of_find?_eq_some ha'
  have hid : (a.id == approvalId) = true := by
    have := List.find?_some ha'
    simpa using this
  have hhit : (st.approvals.any fun x =>
      x.id == approvalId && x.status == ApprovalStatus.pending) = true := by
    rw [List.any_eq_true]
    exact ⟨a, hmem, by simp [hid, hp]⟩
  have hres : workerResolveApproval st approvalId actorId action now =
      (false, { st with approvals := (resolveApprovalRow st.approvals approvalId
        (if action = ResolveAction.approve then ApprovalStatus.approved
         else ApprovalStatus.denied) actorId now).2 }) := by
    simp only [workerResolveApproval, ha, hp]
    simp only [resolveApprovalRow, hhit]
    simp only [ne_eq, not_true_eq_false, if_false, Bool.not_true, Bool.false_eq_true,
      if_neg, ht]
  rw [hres]
  refine ⟨rfl, rfl, rfl, rfl, rfl, rfl, ?_⟩
  intro x hx hxid
  simp only [resolveApprovalRow, List.mem_map] at hx
  obtain ⟨y, _, hy⟩ := hx
  by_cases hyp : (y.id == approvalId && y.status == ApprovalStatus.pending) = true
  · rw [if_pos hyp] at hy
    rw [← hy]
    cases action <;> simp
  · rw [if_neg hyp] at hy
    subst hy
    simp only [Bool.and_eq_true, beq_iff_eq] at hyp
    intro hxp
    exact hyp ⟨hxid, hxp⟩

/-- C10 witness: denying the pending approval of a missing task returns
`false` even though the approval row gets consumed. -/
theorem resolveApproval_missing_task_witness :
    (workerResolveApproval ghostState "ap9" "op" ResolveAction.deny 3).1 = false :=
  (resolveApproval_missing_task ghostState ghostApproval "ap9" "op" ResolveAction.deny 3
    (by decide) (by decide) (by decide)).1

theorem tickExpireStep_approvals (now : Int) (acc : EngineState) (approvalId : String) :
    (tickExpireStep now acc approvalId).approvals = acc.approvals := by
  unfold tickExpireStep
  split
  · rfl
  · dsimp only
    split <;> rfl

theorem tickExpireFold_approvals (now : Int) (l : List String) (acc : EngineState) :
    (l.foldl (tickExpireStep now) acc).approvals = acc.approvals := by
  induction l generalizing acc with
  | nil => rfl
  | cons x rest ih =>
    rw [List.foldl_cons, ih, tickExpireStep_approvals]

theorem markFailed_tasksFailedFor_self (ts : TaskTable) (tid : String) (now : Int) :
    tasksFailedFor tid (markFailed ts tid "approval_timeout" now) := by
  intro t ht hid
  simp only [markFailed, List.mem_map] at ht
  obtain ⟨y, _, hy⟩ := ht
  by_cases hyid : (y.id == tid) = true
  · rw [if_pos hyid] at hy
    rw [← hy]
    exact ⟨rfl, rfl⟩
  · rw [if_neg hyid] at hy
    subst hy
    exact absurd (by simpa using hid) hyid

theorem markFailed_tasksFailedFor_preserved (ts : TaskTable) (tid tid' : String) (now : Int)
    (h : tasksFailedFor tid ts) :
    tasksFailedFor tid (markFailed ts tid' "approval_timeout" now) := by
  intro t ht hid
  simp only [markFailed, List.mem_map] at ht
  obtain ⟨y, hy_mem, hy⟩ := ht
  by_cases hyid : (y.id == tid') = true
  · rw [if_pos hyid] at hy
    rw [← hy]
    exact ⟨rfl, rfl⟩
  · rw [if_neg hyid] at hy
    subst hy
    exact h y hy_mem hid

theorem tickExpireStep_tasksFailedFor_preserved (now : Int) (acc : EngineState)
    (approvalId tid : String) (h : tasksFailedFor tid acc.tasks) :
    tasksFailedFor tid (tickExpireStep now acc approvalId).tasks := by
  unfold tickExpireStep
  split
  · exact h
  · dsimp only
    split
    · exact markFailed_tasksFailedFor_preserved _ _ _ _ h
    · exact markFailed_tasksFailedFor_preserved _ _ _ _ h

theorem tickExpireStep_tasksFailedFor_established (now : Int) (acc : EngineState)
    (approvalId : String) (a' : ApprovalRecord)
    (hfind : getApprovalById acc.approvals approvalId = some a') :
    tasksFailedFor a'.taskId (tickExpireStep now acc approvalId).tasks := by
  simp only [tickExpireStep, hfind]
  split
  · exact markFailed_tasksFailedFor_self _ _ _
  · exact markFailed_tasksFailedFor_self _ _ _

theorem tickExpireFold_tasksFailedFor_preserved (now : Int) (l : List String)
    (acc : EngineState) (tid : String) (h : tasksFailedFor tid acc.tasks) :
    tasksFailedFor tid ((l.foldl (tickExpireStep now) acc).tasks) := by
  induction l generalizing acc with
  | nil => exact h
  | cons x rest ih =>
    rw [List.foldl_cons]
    exact ih _ (tickExpireStep_tasksFailedFor_preserved now acc x tid h)

theorem tickExpireFold_tasksFailedFor_established (now : Int) (l : List String)
    (acc : EngineState) (approvalId : String) (a' : ApprovalRecord)
    (hl : approvalId ∈ l)
    (hfind : getApprovalById acc.approvals approvalId = some a') :
    tasksFailedFor a'.taskId ((l.foldl (tickExpireStep now) acc).tasks) := by
  induction l generalizing acc with
  | nil => exact absurd hl (List.not_mem_nil approvalId)
  | cons x rest ih =>
    rw [List.foldl_cons]
    rcases List.mem_cons.mp hl with hx | hrest
    · subst hx
      exact tickExpireFold_tasksFailedFor_preserved now rest _ _
        (tickExpireStep_tasksFailedFor_established now acc approvalId a' hfind)
    · refine ih _ hrest ?_
      have : (tickExpireStep now acc x).approvals = acc.approvals :=
        tickExpireStep_approvals now acc x
      rw [show getApprovalById (tickExpireStep now acc x).approvals approvalId =
          getApprovalById acc.approvals approvalId from by rw [this]]
      exact hfind

/-- With unique ids, looking up `a.id` in the flipped table finds the
flipped copy of `a` itself. -/
theorem find_flip_of_nodup (cutoff now : Int) (l : ApprovalTable) (a : ApprovalRecord)
    (hmem : a ∈ l) (hnodup : (l.map (fun x => x.id)).Nodup) :
    getApprovalById (l.map (expireFlip cutoff now)) a.id = some (expireFlip cutoff now a) := by
  induction l with
  | nil => exact absurd hmem (List.not_mem_nil a)
  | cons y rest ih =>
    simp only [List.map_cons, List.nodup_cons] at hnodup
    rcases List.mem_cons.mp hmem with hya | har
    · subst hya
      simp only [getApprovalById, List.map_cons, List.find?_cons]
      have : ((expireFlip cutoff now a).id == a.id) = true := by
        simp [expireFlip]
        split <;> simp
      rw [this]
    · have hid : y.id ≠ a.id := by
        intro hcontra
        exact hnodup.1 (hcontra ▸ List.mem_map_of_mem (fun x => x.id) har)
      simp only [getApprovalById, List.map_cons, List.find?_cons]
      have : ((expireFlip cutoff now y).id == a.id) = false := by
        have hyid : (expireFlip cutoff now y).id = y.id := by
          simp [expireFlip]; split <;> simp
        rw [hyid]
        exact beq_eq_false_iff_ne.mpr hid
      rw [this]
      exact ih har hnodup.2

theorem expireOlderThan_snd (aps : ApprovalTable) (ms now : Int) :
    (expireOlderThan aps ms now).2 = aps.map (expireFlip (now - ms) now) := by
  unfold expireOlderThan
  dsimp only
  split
  · rename_i hempty
    simp only [List.isEmpty_eq_true, List.map_eq_nil_iff, List.filter_eq_nil_iff] at hempty
    have hflip : ∀ x ∈ aps, expireFlip (now - ms) now x = x := by
      intro x hx
      simp only [expireFlip]
      rw [if_neg (hempty x hx)]
    show aps = List.map (expireFlip (now - ms) now) aps
    rw [List.map_congr_left hflip]
    simp
  · rfl

theorem expireOlderThan_fst (aps : ApprovalTable) (ms now : Int) :
    (expireOlderThan aps ms now).1 = (aps.filter (expiredPred (now - ms))).map (·.id) := by
  unfold expireOlderThan
  dsimp only
  split <;> rfl

/-- C6.  Approval expiry on an engine tick: every pending approval whose
request timestamp lies more than `approvalTimeoutMs` in the past is flipped
to `denied` with resolver `system_timeout` and a resolved timestamp, and
every task row carrying its task id ends up `failed` with error
`approval_timeout`; approvals that are not pending or not past the cutoff
are unchanged.  Unique approval ids are assumed, as the primary key grants. -/
theorem tick_expires_old_pending_approvals (st : EngineState) (ms now : Int)
    (hnodup : (st.approvals.map (fun x => x.id)).Nodup) :
    (∀ a ∈ st.approvals, a.status = ApprovalStatus.pending → a.requestedAt < now - ms →
      (∃ a' ∈ (tickExpireApprovals ms now st).approvals,
        a'.id = a.id ∧ a'.taskId = a.taskId ∧ a'.status = ApprovalStatus.denied ∧
        a'.resolvedBy = some "system_timeout" ∧ a'.resolvedAt = some now) ∧
      tasksFailedFor a.taskId (tickExpireApprovals ms now st).tasks) ∧
    (∀ a ∈ st.approvals, ¬(a.status = ApprovalStatus.pending ∧ a.requestedAt < now - ms) →
      a ∈ (tickExpireApprovals ms now st).approvals) := by
  have haps : (tickExpireApprovals ms now st).approvals =
      st.approvals.map (expireFlip (now - ms) now) := by
    unfold tickExpireApprovals
    rw [tickExpireFold_approvals]
    exact expireOlderThan_snd st.approvals ms now
  constructor
  · intro a hmem hpend hold
    have hpred : expiredPred (now - ms) a = true := by
      simp [expiredPred, hpend, hold]
    constructor
    · refine ⟨expireFlip (now - ms) now a, ?_, ?_⟩
      · rw [haps]
        exact List.mem_map_of_mem _ hmem
      · simp [expireFlip, hpred]
    · unfold tickExpireApprovals
      have hin : a.id ∈ (expireOlderThan st.approvals ms now).1 := by
        rw [expireOlderThan_fst]
        exact List.mem_map_of_mem _ (List.mem_filter.mpr ⟨hmem, hpred⟩)
      have hfind : getApprovalById
          (EngineState.approvals { st with approvals := (expireOlderThan st.approvals ms now).2 })
          a.id = some (expireFlip (now - ms) now a) := by
        show getApprovalById (expireOlderThan st.approvals ms now).2 a.id = _
        rw [expireOlderThan_snd]
        exact find_flip_of_nodup (now - ms) now st.approvals a hmem hnodup
      have := tickExpireFold_tasksFailedFor_established now
        (expireOlderThan st.approvals ms now).1
        { st with approvals := (expireOlderThan st.approvals ms now).2 }
        a.id (expireFlip (now - ms) now a) hin hfind
      have htid : (expireFlip (now - ms) now a).taskId = a.taskId := by
        simp [expireFlip]; split <;> simp
      rw [htid] at this
      exact this
  · intro a hmem hnot
    rw [haps]
    have : expireFlip (now - ms) now a = a := by
      simp only [expireFlip]
      rw [if_neg]
      simp only [expiredPred, Bool.and_eq_true, beq_iff_eq, decide_eq_true_eq]
      exact hnot
    rw [← this]
    exact List.mem_map_of_mem _ hmem

/-- C6 witness: a pending approval requested at 0 expires at tick time 20
with timeout 10, failing its task. -/
theorem tick_expires_old_pending_approvals_witness :
    tasksFailedFor "A" (tickExpireApprovals 10 20 oldApprovalState).tasks :=
  ((tick_expires_old_pending_approvals oldApprovalState 10 20 (by decide)).1
    oldApproval (by decide) (by decide) (by decide)).2

/-- C5 counterexample: on a run spawned without `--resume` that exits
non-zero with resume-failure-looking output, the claim's chain says a
fallback rerun happens, but the code requires a session reference and
classifies the run as `done`. -/
theorem classify_outcome_not_spec :
    specClassifyOutcome fallbackCexObs = RunOutcomeTag.resumeFallback ∧
    classifyOutcome fallbackCexObs = RunOutcomeTag.doneTag := by decide

/-- C5 (amended).  Outcome classification priority: each branch fires
exactly when all earlier guards are false and its own guard is true, in the
order needs_approval (permission denied, non-skip) → silence_timeout →
timeout → budget_exceeded → resume-failure rerun (non-zero exit AND a
resumed session AND resume-failure-looking output) → cli_error (non-zero
exit, no captured text) → done. -/
theorem classify_outcome_priority (o : RunObservation) :
    (classifyOutcome o = RunOutcomeTag.needsApproval ↔
      (o.permissionDenied.isSome && !o.forceSkipPermissions) = true) ∧
    (classifyOutcome o = RunOutcomeTag.silenceTimeout ↔
      ((o.permissionDenied.isSome && !o.forceSkipPermissions) = false ∧
        o.killedBySilence = true)) ∧
    (classifyOutcome o = RunOutcomeTag.timeout ↔
      ((o.permissionDenied.isSome && !o.forceSkipPermissions) = false ∧
        o.killedBySilence = false ∧ o.killedByHardTimeout = true)) ∧
    (classifyOutcome o = RunOutcomeTag.budgetExceeded ↔
      ((o.permissionDenied.isSome && !o.forceSkipPermissions) = false ∧
        o.killedBySilence = false ∧ o.killedByHardTimeout = false ∧
        o.killedByBudget = true)) ∧
    (classifyOutcome o = RunOutcomeTag.resumeFallback ↔
      ((o.permissionDenied.isSome && !o.forceSkipPermissions) = false ∧
        o.killedBySilence = false ∧ o.killedByHardTimeout = false ∧
        o.killedByBudget = false ∧ resumeFallbackCond o = true)) ∧
    (classifyOutcome o = RunOutcomeTag.cliError ↔
      ((o.permissionDenied.isSome && !o.forceSkipPermissions) = false ∧
        o.killedBySilence = false ∧ o.killedByHardTimeout = false ∧
        o.killedByBudget = false ∧ resumeFallbackCond o = false ∧
        cliErrorCond o = true)) ∧
    (classifyOutcome o = RunOutcomeTag.doneTag ↔
      ((o.permissionDenied.isSome && !o.forceSkipPermissions) = false ∧
        o.killedBySilence = false ∧ o.killedByHardTimeout = false ∧
        o.killedByBudget = false ∧ resumeFallbackCond o = false ∧
        cliErrorCond o = false)) := by
  unfold classifyOutcome
  split_ifs with h1 h2 h3 h4 h5 h6 <;> simp_all

/-- C5 amended-claim witness: a fired hard timeout (with no permission event
and no silence kill) classifies as `timeout`. -/
theorem classify_outcome_priority_witness :
    classifyOutcome timeoutObs = RunOutcomeTag.timeout :=
  (classify_outcome_priority timeoutObs).2.2.1.mpr (by decide)

/-- C8.  With a non-empty `replay_actions` list and readable raw text,
`Summarizer.summarize` returns the extracted text as-is — even with the AI
summarizer available — so the returned summary contains no replay section at
all (not even the word "replay"), contradicting the requirement the code's
own system prompt calls critical for security auditability. -/
theorem summarize_replay_section_missing :
    summarize true (some "**Replay** section from the model")
      replaySummarizerInput = "done." ∧
    strContains (jsToLower (summarize true (some "**Replay** section from the model")
      replaySummarizerInput)) "replay" = false := by decide

/-- C7 counterexample: a `continue_session` task whose thread has no session
record runs exactly once, fresh, on the thread-history-prefixed prompt — but
its successful summary does NOT begin with the "Couldn't resume" notice the
claim requires for every task without a valid session. -/
theorem continue_without_session_not_spec :
    (executeClaudeModel false none [] [] taskC7 false false true none none
      (fun _ => "") 1000 obsOkC7 obsOkC7).1 =
      [⟨none, "[Context: continuing from previous task in this thread. Previous task summary: unavailable] continue please"⟩] ∧
    (executeClaudeModel false none [] [] taskC7 false false true none none
      (fun _ => "") 1000 obsOkC7 obsOkC7).2.status = TaskStatus.done ∧
    strStarts (executeClaudeModel false none [] [] taskC7 false false true none none
      (fun _ => "") 1000 obsOkC7 obsOkC7).2.summary "Couldn't resume" = false := by
  decide

/-- C7 (amended).  Resume-fallback confluence for a `continue_session`
task: (1) with no session record at all, exactly one fresh run occurs on
the thread-history-prefixed prompt and the result is the plain
classification of that run — no notice is prepended; (2) with a stale
session record, when the resumed run exits non-zero with
resume-failure-looking output (and no permission event or monitor kill),
exactly one fresh rerun occurs on the thread-history-prefixed prompt, and
whenever the rerun ends done or failed its user-visible summary is
prefixed with the explicit "Couldn't resume previous session" notice. -/
theorem resume_fallback_confluence (aiAvailable : Bool) (aiReply : Option String)
    (sessions : List SessionRecord) (tasks : TaskTable) (task : TaskRecord)
    (isoOfTs : Int → String) (tokenBudget : Int) (obs1 obs2 : RunObservation)
    (hcont : task.continueSession = true) :
    (sessionsGet sessions task.threadId = none →
      executeClaudeModel aiAvailable aiReply sessions tasks task false false true
          none none isoOfTs tokenBudget obs1 obs2 =
        ([⟨none, buildResumeFallbackPrompt tasks task.threadId task.prompt isoOfTs⟩],
          runResultNoFallback aiAvailable aiReply tokenBudget
            { obs1 with sessionUsed := none, forceSkipPermissions := false })) ∧
    (∀ sess, sessionsGet sessions task.threadId = some sess → sess.sessionId ≠ "" →
      obs1.permissionDenied = none →
      obs1.killedBySilence = false → obs1.killedByHardTimeout = false →
      obs1.killedByBudget = false →
      obs1.exitCode.getD 0 ≠ 0 →
      looksLikeResumeFailure (combinedOutputOf
        { obs1 with sessionUsed := some sess.sessionId,
                    forceSkipPermissions := false }) = true →
      (executeClaudeModel aiAvailable aiReply sessions tasks task false false true
          none none isoOfTs tokenBudget obs1 obs2).1 =
        [⟨some sess.sessionId, task.prompt⟩,
         ⟨none, buildResumeFallbackPrompt tasks task.threadId task.prompt isoOfTs⟩] ∧
      ∀ rerun, rerun = runResultNoFallback aiAvailable aiReply tokenBudget
          { obs2 with sessionUsed := none, forceSkipPermissions := false } →
        (rerun.status = TaskStatus.done ∨ rerun.status = TaskStatus.failed) →
        (executeClaudeModel aiAvailable aiReply sessions tasks task false false true
            none none isoOfTs tokenBudget obs1 obs2).2.summary =
          "Couldn't resume previous session; started fresh with thread context summary." ++
            "\n\n" ++ rerun.summary) := by
  constructor
  · intro hnone
    simp only [executeClaudeModel, hnone, hcont, buildPromptModel, Bool.and_self,
      Bool.true_and, Bool.true_or, if_true]
    have hfb : resumeFallbackCond
        { obs1 with sessionUsed := none, forceSkipPermissions := false } = false := by
      simp [resumeFallbackCond]
    simp only [hfb, Bool.false_eq_true, if_false, runResultNoFallback]
    split_ifs <;> rfl
  · intro sess hsess hne hperm hsil hhard hbud hexit hlooks
    have hexitb : decide (obs1.exitCode.getD 0 ≠ 0) = true := decide_eq_true hexit
    simp only [combinedOutputOf, finalTextOf] at hlooks
    simp only [executeClaudeModel, hsess, hcont, buildPromptModel, hne, hperm,
      hsil, hhard, hbud, resumeFallbackCond, combinedOutputOf, finalTextOf,
      hexitb, hlooks, Option.isSome_none, Option.isSome_some, Bool.false_and,
      Bool.true_and, Bool.and_true, Bool.and_self, Bool.not_false, ne_eq,
      not_false_eq_true, Bool.true_or, if_true, if_false, Bool.false_eq_true,
      ite_true, ite_false]
    refine ⟨trivial, ?_⟩
    intro rerun hrerun hterm
    subst hrerun
    rcases hterm with h | h <;>
      simp [resumeNotice, hcont, h]

/-- C7 amended-claim witness: the no-session case at concrete inputs. -/
theorem resume_fallback_confluence_witness :
    executeClaudeModel false none [] [] taskC7 false false true none none
        (fun _ => "") 1000 obsOkC7 obsOkC7 =
      ([⟨none, buildResumeFallbackPrompt [] taskC7.threadId taskC7.prompt (fun _ => "")⟩],
        runResultNoFallback false none 1000
          { obsOkC7 with sessionUsed := none, forceSkipPermissions := false }) :=
  (resume_fallback_confluence false none [] [] taskC7 (fun _ => "") 1000 obsOkC7 obsOkC7
    rfl).1 rfl

/-! ### Idempotence of the redactor -/

theorem replaceAllAux_skip (m : List Char → Option Nat) (repl : List Char → List Char) :
    ∀ (k : Nat) (s : List Char), replaceAllAux m repl k s = replaceAll m repl (s.drop k)
  | 0, s => by simp [replaceAll]
  | k + 1, [] => by simp [replaceAll, replaceAllAux]
  | k + 1, c :: rest => by
    rw [show replaceAllAux m repl (k + 1) (c :: rest) = replaceAllAux m repl k rest from rfl,
      replaceAllAux_skip m repl k rest]
    simp

theorem replaceAll_nil (m : List Char → Option Nat) (repl : List Char → List Char) :
    replaceAll m repl [] = [] := rfl

theorem replaceAll_cons (m : List Char → Option Nat) (repl : List Char → List Char)
    (c : Char) (rest : List Char) :
    replaceAll m repl (c :: rest) =
      match m (c :: rest) with
      | some (k + 1) =>
        repl ((c :: rest).take (k + 1)) ++ replaceAll m repl ((c :: rest).drop (k + 1))
      | _ => c :: replaceAll m repl rest := by
  show replaceAllAux m repl 0 (c :: rest) = _
  rw [show replaceAllAux m repl 0 (c :: rest) =
    (match m (c :: rest) with
     | some (k + 1) => repl ((c :: rest).take (k + 1)) ++ replaceAllAux m repl k rest
     | _ => c :: replaceAllAux m repl 0 rest) from rfl]
  cases h : m (c :: rest) with
  | none => rfl
  | some k =>
    cases k with
    | zero => rfl
    | succ k => simp [replaceAllAux_skip]

theorem suffix_append_cases {t : List Char} :
    ∀ {x y : List Char}, t <:+ x ++ y →
      t <:+ y ∨ ∃ w, w <:+ x ∧ w ≠ [] ∧ t = w ++ y := by
  intro x
  induction x with
  | nil => intro y h; exact Or.inl h
  | cons a x' ih =>
    intro y h
    rcases List.suffix_cons_iff.mp h with heq | htail
    · exact Or.inr ⟨a :: x', List.suffix_rfl, by simp, heq⟩
    · rcases ih htail with h1 | ⟨w, hw, hne, ht⟩
      · exact Or.inl h1
      · exact Or.inr ⟨w, hw.trans (List.suffix_cons a x'), hne, ht⟩

theorem twc_le_length (p : Char → Bool) : ∀ l : List Char, takeWhileCount p l ≤ l.length
  | [] => Nat.le_refl 0
  | c :: rest => by
    simp only [takeWhileCount, List.length_cons]
    split
    · exact Nat.succ_le_succ (twc_le_length p rest)
    · exact Nat.zero_le _

theorem twc_take_sat (p : Char → Bool) :
    ∀ l : List Char, ∀ c ∈ l.take (takeWhileCount p l), p c = true
  | [] => by simp
  | c :: rest => by
    simp only [takeWhileCount]
    split
    · rename_i hpc
      intro d hd
      simp only [List.take_succ_cons, List.mem_cons] at hd
      rcases hd with hd | hd
      · exact hd ▸ hpc
      · exact twc_take_sat p rest d hd
    · simp

theorem twc_stop (p : Char → Bool) :
    ∀ l : List Char, takeWhileCount p l < l.length →
      ∃ c, l.get? (takeWhileCount p l) = some c ∧ p c = false
  | [] => by simp [takeWhileCount]
  | c :: rest => by
    simp only [takeWhileCount]
    split
    · rename_i hpc
      intro h
      simp only [List.length_cons, Nat.add_lt_add_iff_right] at h
      obtain ⟨d, hd, hpd⟩ := twc_stop p rest h
      exact ⟨d, by simpa using hd, hpd⟩
    · rename_i hpc
      intro _
      exact ⟨c, rfl, by simpa using hpc⟩

theorem twc_append_all (p : Char → Bool) :
    ∀ t v : List Char, (∀ c ∈ t, p c = true) →
      takeWhileCount p (t ++ v) = t.length + takeWhileCount p v
  | [], v, _ => by simp
  | c :: rest, v, h => by
    have hc : p c = true := h c (List.mem_cons_self c rest)
    simp only [List.cons_append, takeWhileCount, hc, if_true, List.length_cons,
      List.append_eq]
    rw [twc_append_all p rest v fun d hd => h d (List.mem_cons_of_mem c hd)]
    omega

theorem twc_append_lt (p : Char → Bool) :
    ∀ t v : List Char, takeWhileCount p t < t.length →
      takeWhileCount p (t ++ v) = takeWhileCount p t
  | [], v => by simp [takeWhileCount]
  | c :: rest, v => by
    simp only [takeWhileCount, List.cons_append, List.append_eq]
    split
    · intro h
      simp only [List.length_cons, Nat.add_lt_add_iff_right] at h
      rw [twc_append_lt p rest v h]
    · intro _
      rfl

theorem twc_congr (p : Char → Bool) :
    ∀ (n : Nat) (l₁ l₂ : List Char), l₁.take n = l₂.take n →
      takeWhileCount p l₁ < n → takeWhileCount p l₂ = takeWhileCount p l₁ := by
  intro n
  induction n with
  | zero => intro l₁ l₂ _ h; exact absurd h (Nat.not_lt_zero _)
  | succ n ih =>
    intro l₁ l₂ htake hlt
    cases l₁ with
    | nil =>
      cases l₂ with
      | nil => rfl
      | cons b r₂ => simp at htake
    | cons a r₁ =>
      cases l₂ with
      | nil => simp at htake
      | cons b r₂ =>
        simp only [List.take_succ_cons, List.cons.injEq] at htake
        obtain ⟨hab, hr⟩ := htake
        subst hab
        simp only [takeWhileCount] at hlt ⊢
        split
        · rename_i hpa
          rw [if_pos hpa] at hlt
          rw [ih r₁ r₂ hr (by omega)]
        · rfl

theorem chh_length {L u : List Char} (h : charsHaveHead L u = true) :
    L.length ≤ u.length := by
  induction L generalizing u with
  | nil => exact Nat.zero_le _
  | cons a as ih =>
    cases u with
    | nil => simp [charsHaveHead] at h
    | cons b bs =>
      simp only [charsHaveHead, Bool.and_eq_true] at h
      simpa using ih h.2

theorem chh_take {L u : List Char} (h : charsHaveHead L u = true) :
    ∀ n v, L.length ≤ n → charsHaveHead L (u.take n ++ v) = true := by
  induction L generalizing u with
  | nil => intro n v _; rfl
  | cons a as ih =>
    cases u with
    | nil => simp [charsHaveHead] at h
    | cons b bs =>
      simp only [charsHaveHead, Bool.and_eq_true] at h
      intro n v hn
      cases n with
      | zero => simp at hn
      | succ n =>
        simp only [List.take_succ_cons, List.cons_append, charsHaveHead,
          Bool.and_eq_true]
        exact ⟨h.1, ih h.2 n v (by simpa using hn)⟩

theorem chhCI_length {L u : List Char} (h : charsHaveHeadCI L u = true) :
    L.length ≤ u.length := by
  induction L generalizing u with
  | nil => exact Nat.zero_le _
  | cons a as ih =>
    cases u with
    | nil => simp [charsHaveHeadCI] at h
    | cons b bs =>
      simp only [charsHaveHeadCI, Bool.and_eq_true] at h
      simpa using ih h.2

theorem chhCI_take {L u : List Char} (h : charsHaveHeadCI L u = true) :
    ∀ n v, L.length ≤ n → charsHaveHeadCI L (u.take n ++ v) = true := by
  induction L generalizing u with
  | nil => intro n v _; rfl
  | cons a as ih =>
    cases u with
    | nil => simp [charsHaveHeadCI] at h
    | cons b bs =>
      simp only [charsHaveHeadCI, Bool.and_eq_true] at h
      intro n v hn
      cases n with
      | zero => simp at hn
      | succ n =>
        simp only [List.take_succ_cons, List.cons_append, charsHaveHeadCI,
          Bool.and_eq_true]
        exact ⟨h.1, ih h.2 n v (by simpa using hn)⟩

theorem aub_refl (t : List Char) : AgreesUB t t := Or.inl rfl

theorem aub_cons {t u : List Char} (c : Char) (h : AgreesUB t u) :
    AgreesUB (c :: t) (c :: u) := by
  rcases h with rfl | ⟨w, t2, d, u2, rfl, rfl, hd⟩
  · exact Or.inl rfl
  · exact Or.inr ⟨c :: w, t2, d, u2, rfl, rfl, hd⟩

theorem aub_append {t u : List Char} (x : List Char) (h : AgreesUB t u) :
    AgreesUB (x ++ t) (x ++ u) := by
  induction x with
  | nil => exact h
  | cons a as ih => exact aub_cons a ih

theorem aub_bracket {t2 u2 : List Char} {c : Char} (hc : isJsSpace c = false) :
    AgreesUB ('[' :: t2) (c :: u2) :=
  Or.inr ⟨[], t2, c, u2, rfl, rfl, hc⟩

/-- Generic first-difference property of a replacement pass: the output
either equals the input or agrees with it up to an inserted `[`-starting
block whose position in the input held the (non-space) head of a match. -/
theorem replaceAll_agreesUB (m : List Char → Option Nat) (repl : List Char → List Char)
    (hstart : ∀ c rest k, m (c :: rest) = some k → isJsSpace c = false)
    (hrepl : ∀ x, repl x = x ∨ ∃ r, repl x = '[' :: r) :
    ∀ s, AgreesUB (replaceAll m repl s) s := by
  have main : ∀ n s, List.length s ≤ n → AgreesUB (replaceAll m repl s) s := by
    intro n
    induction n with
    | zero =>
      intro s hs
      have : s = [] := List.length_eq_zero.mp (Nat.le_zero.mp hs)
      subst this
      exact aub_refl _
    | succ n ih =>
      intro s hs
      cases s with
      | nil => exact aub_refl _
      | cons c rest =>
        cases h : m (c :: rest) with
        | none =>
          simp only [replaceAll_cons, h]
          exact aub_cons c (ih rest (by simpa using hs))
        | some k =>
          cases k with
          | zero =>
            simp only [replaceAll_cons, h]
            exact aub_cons c (ih rest (by simpa using hs))
          | succ k =>
            simp only [replaceAll_cons, h]
            have hc : isJsSpace c = false := hstart c rest (k + 1) h
            rcases hrepl ((c :: rest).take (k + 1)) with hid | ⟨r, hbr⟩
            · rw [hid]
              have hdec : (c :: rest).take (k + 1) ++ (c :: rest).drop (k + 1) =
                  c :: rest := List.take_append_drop _ _
              have haub := aub_append ((c :: rest).take (k + 1))
                (ih ((c :: rest).drop (k + 1))
                  (by simp only [List.length_cons] at hs
                      simp only [List.length_drop, List.length_cons]
                      omega))
              rw [hdec] at haub
              exact haub
            · rw [hbr]
              exact aub_bracket hc
  intro s
  exact main s.length s (Nat.le_refl _)

theorem suffix_append_of_suffix {w x y : List Char} (h : w <:+ x) : w ++ y <:+ x ++ y := by
  obtain ⟨pre, hpre⟩ := h
  exact ⟨pre, by rw [← hpre, List.append_assoc]⟩

theorem noM_of_suffix {m : List Char → Option Nat} {s t : List Char}
    (h : NoM m s) (hts : t <:+ s) : NoM m t :=
  fun t' ht' => h t' (ht'.trans hts)

/-- A pass with no match anywhere is the identity. -/
theorem replaceAll_eq_self_of_noM (m : List Char → Option Nat)
    (repl : List Char → List Char) : ∀ s, NoM m s → replaceAll m repl s = s := by
  have main : ∀ n s, List.length s ≤ n → NoM m s → replaceAll m repl s = s := by
    intro n
    induction n with
    | zero =>
      intro s hs _
      have : s = [] := List.length_eq_zero.mp (Nat.le_zero.mp hs)
      subst this
      rfl
    | succ n ih =>
      intro s hs hno
      cases s with
      | nil => rfl
      | cons c rest =>
        have h : m (c :: rest) = none := hno (c :: rest) List.suffix_rfl
        simp only [replaceAll_cons, h]
        rw [ih rest (by simpa using hs)
          (noM_of_suffix hno (List.suffix_cons c rest))]
  intro s
  exact main s.length s (Nat.le_refl _)

/-- Self-stabilization: after its own pass, a constant-replacement pattern
has no match left anywhere, provided matches transfer back through inserted
blocks, no match can start inside `[REDACTED]`, and matches start with a
non-space character. -/
theorem self_noM (m : List Char → Option Nat)
    (htrans : ∀ t u, AgreesUB t u → m u = none → m t = none)
    (hrs : ∀ t v, t <:+ redactedTxt → t ≠ [] → m (t ++ v) = none)
    (hstart : ∀ c rest k, m (c :: rest) = some k → isJsSpace c = false)
    (hpos : ∀ s, m s ≠ some 0) (hnil : m [] = none) :
    ∀ s, NoM m (replaceAll m constRedacted s) := by
  have hrepl : ∀ x : List Char, constRedacted x = x ∨ constRedacted x = redactedTxt :=
    fun x => Or.inr rfl
  have haub := replaceAll_agreesUB m constRedacted hstart
    (fun x => Or.inr ⟨"REDACTED]".data, rfl⟩)
  have main : ∀ n s, List.length s ≤ n → NoM m (replaceAll m constRedacted s) := by
    intro n
    induction n with
    | zero =>
      intro s hs
      have : s = [] := List.length_eq_zero.mp (Nat.le_zero.mp hs)
      subst this
      intro t ht
      have : t = [] := List.eq_nil_of_suffix_nil ht
      subst this
      exact hnil
    | succ n ih =>
      intro s hs
      cases s with
      | nil =>
        intro t ht
        have : t = [] := List.eq_nil_of_suffix_nil ht
        subst this
        exact hnil
      | cons c rest =>
        cases h : m (c :: rest) with
        | none =>
          simp only [replaceAll_cons, h]
          intro t ht
          rcases List.suffix_cons_iff.mp ht with rfl | htail
          · exact htrans _ _ (aub_cons c (haub rest)) h
          · exact ih rest (by simpa using hs) t htail
        | some k =>
          cases k with
          | zero => exact absurd h (hpos _)
          | succ k =>
            simp only [replaceAll_cons, h, constRedacted]
            intro t ht
            rcases suffix_append_cases ht with htail | ⟨w, hw, hne, rfl⟩
            · exact ih ((c :: rest).drop (k + 1))
                (by simp only [List.length_cons] at hs
                    simp only [List.length_drop, List.length_cons]
                    omega) t htail
            · exact hrs w _ hw hne
  intro s
  exact main s.length s (Nat.le_refl _)

/-- Preservation: a pattern with no match anywhere keeps that property
through any later pass whose replacements are the matched slice itself or
`[REDACTED]`. -/
theorem pres_noM (mi mj : List Char → Option Nat) (replj : List Char → List Char)
    (htrans : ∀ t u, AgreesUB t u → mi u = none → mi t = none)
    (hrs : ∀ t v, t <:+ redactedTxt → t ≠ [] → mi (t ++ v) = none)
    (hstartj : ∀ c rest k, mj (c :: rest) = some k → isJsSpace c = false)
    (hreplj : ∀ x : List Char, replj x = x ∨ replj x = redactedTxt) :
    ∀ s, NoM mi s → NoM mi (replaceAll mj replj s) := by
  have haub := replaceAll_agreesUB mj replj hstartj
    (fun x => (hreplj x).imp id fun hx => ⟨"REDACTED]".data, hx⟩)
  have main : ∀ n s, List.length s ≤ n → NoM mi s → NoM mi (replaceAll mj replj s) := by
    intro n
    induction n with
    | zero =>
      intro s hs hno
      have : s = [] := List.length_eq_zero.mp (Nat.le_zero.mp hs)
      subst this
      exact hno
    | succ n ih =>
      intro s hs hno
      cases s with
      | nil => exact hno
      | cons c rest =>
        cases h : mj (c :: rest) with
        | none =>
          simp only [replaceAll_cons, h]
          intro t ht
          rcases List.suffix_cons_iff.mp ht with rfl | htail
          · exact htrans _ _ (aub_cons c (haub rest)) (hno _ List.suffix_rfl)
          · exact ih rest (by simpa using hs)
              (noM_of_suffix hno (List.suffix_cons c rest)) t htail
        | some k =>
          cases k with
          | zero =>
            simp only [replaceAll_cons, h]
            intro t ht
            rcases List.suffix_cons_iff.mp ht with rfl | htail
            · exact htrans _ _ (aub_cons c (haub rest)) (hno _ List.suffix_rfl)
            · exact ih rest (by simpa using hs)
                (noM_of_suffix hno (List.suffix_cons c rest)) t htail
          | succ k =>
            simp only [replaceAll_cons, h]
            have hdroplen : List.length ((c :: rest).drop (k + 1)) ≤ n := by
              simp only [List.length_cons] at hs
              simp only [List.length_drop, List.length_cons]
              omega
            have hdropno : NoM mi ((c :: rest).drop (k + 1)) :=
              noM_of_suffix hno (List.drop_suffix _ _)
            rcases hreplj ((c :: rest).take (k + 1)) with hid | hred
            · rw [hid]
              intro t ht
              rcases suffix_append_cases ht with htail | ⟨w, hw, hne, rfl⟩
              · exact ih _ hdroplen hdropno t htail
              · have hsuf : w ++ (c :: rest).drop (k + 1) <:+ c :: rest := by
                  have := @suffix_append_of_suffix _ _ ((c :: rest).drop (k + 1)) hw
                  rwa [List.take_append_drop] at this
                exact htrans _ _ (aub_append w (haub _)) (hno _ hsuf)
            · rw [hred]
              intro t ht
              rcases suffix_append_cases ht with htail | ⟨w, hw, hne, rfl⟩
              · exact ih _ hdroplen hdropno t htail
              · exact hrs w _ hw hne
  intro s
  exact main s.length s (Nat.le_refl _)

theorem get_append_self (w : List Char) (c : Char) (r : List Char) :
    (w ++ c :: r).get? w.length = some c := by
  induction w with
  | nil => rfl
  | cons a as ih => simpa using ih

theorem twc_bound_bracket (cls : Char → Bool) (x : List Char) (c : Char) (y : List Char)
    (hc : cls c = false) : takeWhileCount cls (x ++ c :: y) ≤ x.length := by
  by_cases h : takeWhileCount cls x < x.length
  · rw [twc_append_lt cls x (c :: y) h]
    exact Nat.le_of_lt h
  · have hall : ∀ d ∈ x, cls d = true := by
      have hx : takeWhileCount cls x = x.length :=
        Nat.le_antisymm (twc_le_length cls x) (Nat.le_of_not_lt h)
      intro d hd
      have := twc_take_sat cls x
      rw [hx, List.take_length] at this
      exact this d hd
    rw [twc_append_all cls x (c :: y) hall]
    simp [takeWhileCount, hc]

theorem twc_ge_of_prefix (cls : Char → Bool) (l : List Char) (n : Nat)
    (hsat : ∀ d ∈ l.take n, cls d = true) (hn : n ≤ l.length) :
    n ≤ takeWhileCount cls l := by
  induction n generalizing l with
  | zero => exact Nat.zero_le _
  | succ n ih =>
    cases l with
    | nil => simp at hn
    | cons a as =>
      have ha : cls a = true := hsat a (by simp)
      simp only [takeWhileCount, ha, if_true]
      have := ih as (fun d hd => hsat d (by simp [hd]))
        (by simpa using hn)
      omega

theorem chh_get {L u : List Char} (h : charsHaveHead L u = true) :
    ∀ i, i < L.length → u.get? i = L.get? i := by
  induction L generalizing u with
  | nil => intro i hi; simp at hi
  | cons a as ih =>
    cases u with
    | nil => simp [charsHaveHead] at h
    | cons b bs =>
      simp only [charsHaveHead, Bool.and_eq_true, beq_iff_eq] at h
      intro i hi
      cases i with
      | zero => simp [h.1]
      | succ i =>
        simp only [List.get?_cons_succ]
        exact ih h.2 i (by simpa using hi)

theorem chhCI_get {L u : List Char} (h : charsHaveHeadCI L u = true) :
    ∀ i, i < L.length → ∃ a b, u.get? i = some a ∧ L.get? i = some b ∧
      Char.toLower a = Char.toLower b := by
  induction L generalizing u with
  | nil => intro i hi; simp at hi
  | cons a as ih =>
    cases u with
    | nil => simp [charsHaveHeadCI] at h
    | cons b bs =>
      simp only [charsHaveHeadCI, Bool.and_eq_true, beq_iff_eq] at h
      intro i hi
      cases i with
      | zero => exact ⟨b, a, rfl, rfl, h.1.symm⟩
      | succ i =>
        simp only [List.get?_cons_succ]
        exact ih h.2 i (by simpa using hi)

/-- Generic back-transfer for a `literal + one greedy class run` matcher
(`sk-`, `ghp_`, `xoxb-`, `AIza`): a match in the block-carrying text pulls
back to a match in the original, because neither the literal nor the class
admits `[`, so the whole match sits inside the shared prefix. -/
theorem transfer_litRun (m : List Char → Option Nat)
    (hd : List Char → List Char → Bool) (lit : List Char) (cls : Char → Bool)
    (minR : Nat)
    (hdTake : ∀ {u}, hd lit u = true → ∀ n v, lit.length ≤ n →
      hd lit (u.take n ++ v) = true)
    (hdLen : ∀ {u}, hd lit u = true → lit.length ≤ u.length)
    (hdNoBracket : ∀ {u} i, hd lit u = true → i < lit.length → u.get? i ≠ some '[')
    (hclsBF : cls '[' = false)
    (hchar : ∀ s k, m s = some k → hd lit s = true ∧
      minR ≤ takeWhileCount cls (s.drop lit.length))
    (hback : ∀ s, hd lit s = true → minR ≤ takeWhileCount cls (s.drop lit.length) →
      m s ≠ none) :
    ∀ t u, AgreesUB t u → m u = none → m t = none := by
  intro t u haub hu
  rcases haub with rfl | ⟨w, t2, c', u2, rfl, rfl, hc'⟩
  · exact hu
  · cases hm : m (w ++ '[' :: t2) with
    | none => rfl
    | some k =>
      exfalso
      obtain ⟨hhd, hrun⟩ := hchar _ k hm
      by_cases hwlit : w.length < lit.length
      · exact hdNoBracket w.length hhd hwlit (get_append_self w '[' t2)
      · have hwl : lit.length ≤ w.length := Nat.le_of_not_lt hwlit
        have hdropt : (w ++ '[' :: t2).drop lit.length =
            w.drop lit.length ++ '[' :: t2 := List.drop_append_of_le_length hwl
        have hrunbound : takeWhileCount cls ((w ++ '[' :: t2).drop lit.length) ≤
            w.length - lit.length := by
          rw [hdropt]
          have := twc_bound_bracket cls (w.drop lit.length) '[' t2 hclsBF
          simpa using this
        have hhd_u : hd lit (w ++ c' :: u2) = true := by
          have htake : (w ++ '[' :: t2).take w.length = w := List.take_left w _
          have := hdTake hhd w.length (c' :: u2) hwl
          rwa [htake] at this
        have hdropu : (w ++ c' :: u2).drop lit.length =
            w.drop lit.length ++ c' :: u2 := List.drop_append_of_le_length hwl
        have hrun_u : minR ≤ takeWhileCount cls ((w ++ c' :: u2).drop lit.length) := by
          rw [hdropu]
          have hrun_t : minR ≤ takeWhileCount cls (w.drop lit.length ++ '[' :: t2) := by
            rw [hdropt] at hrun
            exact hrun
          have hsat : ∀ d ∈ (w.drop lit.length ++ c' :: u2).take minR, cls d = true := by
            intro d hd'
            have hminw : minR ≤ (w.drop lit.length).length := by
              simp only [List.length_drop]
              omega
            rw [List.take_append_of_le_length hminw] at hd'
            have hsat_t := twc_take_sat cls (w.drop lit.length ++ '[' :: t2)
            apply hsat_t
            have heqtake : (w.drop lit.length ++ '[' :: t2).take minR =
                (w.drop lit.length).take minR := List.take_append_of_le_length hminw
            have htt : ((w.drop lit.length ++ '[' :: t2).take
                (takeWhileCount cls (w.drop lit.length ++ '[' :: t2))).take minR =
                (w.drop lit.length ++ '[' :: t2).take minR := by
              rw [List.take_take]
              congr 1
              omega
            have hd2 : d ∈ ((w.drop lit.length ++ '[' :: t2).take
                (takeWhileCount cls (w.drop lit.length ++ '[' :: t2))).take minR := by
              rw [htt, heqtake]
              exact hd'
            exact List.take_subset _ _ hd2
          have hlen : minR ≤ (w.drop lit.length ++ c' :: u2).length := by
            simp only [List.length_append, List.length_drop, List.length_cons]
            omega
          exact twc_ge_of_prefix cls _ minR hsat hlen
        exact hback _ hhd_u hrun_u hu

theorem chh_noBracket {lit : List Char} (hnb : '[' ∉ lit) :
    ∀ {u : List Char} (i : Nat), charsHaveHead lit u = true → i < lit.length →
      u.get? i ≠ some '[' := by
  intro u i h hi hcontra
  have hgu := chh_get h i hi
  rw [hcontra] at hgu
  have hmem : '[' ∈ lit := List.get?_mem hgu.symm
  exact hnb hmem

theorem chhCI_noBracket {lit : List Char}
    (hnb : ∀ ch ∈ lit, Char.toLower ch ≠ '[') :
    ∀ {u : List Char} (i : Nat), charsHaveHeadCI lit u = true → i < lit.length →
      u.get? i ≠ some '[' := by
  intro u i h hi hcontra
  obtain ⟨a, b, hua, hlb, hab⟩ := chhCI_get h i hi
  rw [hcontra] at hua
  have ha : a = '[' := by injection hua with h'; exact h'.symm
  subst ha
  have hbl : b ∈ lit := List.get?_mem hlb
  have : Char.toLower '[' = '[' := by decide
  rw [this] at hab
  exact hnb b hbl hab.symm

theorem matchSk_char (s : List Char) (k : Nat) (h : matchSk s = some k) :
    charsHaveHead "sk-".data s = true ∧ 20 ≤ takeWhileCount isAlnum (s.drop 3) := by
  simp only [matchSk] at h
  split at h
  · split at h
    · rename_i h1 h2
      exact ⟨h1, h2⟩
    · exact absurd h (by simp)
  · exact absurd h (by simp)

theorem matchSk_back (s : List Char) (h1 : charsHaveHead "sk-".data s = true)
    (h2 : 20 ≤ takeWhileCount isAlnum (s.drop 3)) : matchSk s ≠ none := by
  simp [matchSk, h1, h2]

theorem matchSk_transfer : ∀ t u, AgreesUB t u → matchSk u = none → matchSk t = none :=
  transfer_litRun matchSk charsHaveHead "sk-".data isAlnum 20
    (fun h n v hn => chh_take h n v hn)
    (fun h => chh_length h)
    (fun i h hi => chh_noBracket (by decide) i h hi)
    (by decide)
    matchSk_char
    matchSk_back

theorem matchGhp_char (s : List Char) (k : Nat) (h : matchGhp s = some k) :
    charsHaveHead "ghp_".data s = true ∧ 1 ≤ takeWhileCount isAlnum (s.drop 4) := by
  simp only [matchGhp] at h
  split at h
  · split at h
    · rename_i h1 h2
      exact ⟨h1, h2⟩
    · exact absurd h (by simp)
  · exact absurd h (by simp)

theorem matchGhp_back (s : List Char) (h1 : charsHaveHead "ghp_".data s = true)
    (h2 : 1 ≤ takeWhileCount isAlnum (s.drop 4)) : matchGhp s ≠ none := by
  simp [matchGhp, h1, h2]

theorem matchGhp_transfer : ∀ t u, AgreesUB t u → matchGhp u = none → matchGhp t = none :=
  transfer_litRun matchGhp charsHaveHead "ghp_".data isAlnum 1
    (fun h n v hn => chh_take h n v hn)
    (fun h => chh_length h)
    (fun i h hi => chh_noBracket (by decide) i h hi)
    (by decide)
    matchGhp_char
    matchGhp_back

theorem matchXoxb_char (s : List Char) (k : Nat) (h : matchXoxb s = some k) :
    charsHaveHead "xoxb-".data s = true ∧ 1 ≤ takeWhileCount isXoxbChar (s.drop 5) := by
  simp only [matchXoxb] at h
  split at h
  · split at h
    · rename_i h1 h2
      exact ⟨h1, h2⟩
    · exact absurd h (by simp)
  · exact absurd h (by simp)

theorem matchXoxb_back (s : List Char) (h1 : charsHaveHead "xoxb-".data s = true)
    (h2 : 1 ≤ takeWhileCount isXoxbChar (s.drop 5)) : matchXoxb s ≠ none := by
  simp [matchXoxb, h1, h2]

theorem matchXoxb_transfer :
    ∀ t u, AgreesUB t u → matchXoxb u = none → matchXoxb t = none :=
  transfer_litRun matchXoxb charsHaveHead "xoxb-".data isXoxbChar 1
    (fun h n v hn => chh_take h n v hn)
    (fun h => chh_length h)
    (fun i h hi => chh_noBracket (by decide) i h hi)
    (by decide)
    matchXoxb_char
    matchXoxb_back

theorem matchAIza_char (s : List Char) (k : Nat) (h : matchAIza s = some k) :
    charsHaveHead "AIza".data s = true ∧ 35 ≤ takeWhileCount isAIzaChar (s.drop 4) := by
  simp only [matchAIza] at h
  split at h
  · split at h
    · rename_i h1 h2
      exact ⟨h1, h2⟩
    · exact absurd h (by simp)
  · exact absurd h (by simp)

theorem matchAIza_back (s : List Char) (h1 : charsHaveHead "AIza".data s = true)
    (h2 : 35 ≤ takeWhileCount isAIzaChar (s.drop 4)) : matchAIza s ≠ none := by
  simp [matchAIza, h1, h2]

theorem matchAIza_transfer :
    ∀ t u, AgreesUB t u → matchAIza u = none → matchAIza t = none :=
  transfer_litRun matchAIza charsHaveHead "AIza".data isAIzaChar 35
    (fun h n v hn => chh_take h n v hn)
    (fun h => chh_length h)
    (fun i h hi => chh_noBracket (by decide) i h hi)
    (by decide)
    matchAIza_char
    matchAIza_back

/-- The ECMAScript whitespace characters, by code point. -/
theorem ws_enum_flat (c : Char) (h : isJsSpace c = true) :
    c.toNat = 32 ∨ c.toNat = 9 ∨ c.toNat = 10 ∨ c.toNat = 13 ∨ c.toNat = 0xb ∨
    c.toNat = 0xc ∨ c.toNat = 0xa0 ∨ c.toNat = 0x1680 ∨ c.toNat = 0x2000 ∨
    c.toNat = 0x2001 ∨ c.toNat = 0x2002 ∨ c.toNat = 0x2003 ∨ c.toNat = 0x2004 ∨
    c.toNat = 0x2005 ∨ c.toNat = 0x2006 ∨ c.toNat = 0x2007 ∨ c.toNat = 0x2008 ∨
    c.toNat = 0x2009 ∨ c.toNat = 0x200a ∨ c.toNat = 0x2028 ∨ c.toNat = 0x2029 ∨
    c.toNat = 0x202f ∨ c.toNat = 0x205f ∨ c.toNat = 0x3000 ∨ c.toNat = 0xfeff := by
  simp only [isJsSpace, Bool.or_eq_true, beq_iff_eq, Bool.and_eq_true,
    decide_eq_true_eq] at h
  rcases h with ((((((((((((((h|h)|h)|h)|h)|h)|h)|h)|⟨h1,h2⟩)|h)|h)|h)|h)|h)|h)
  · have : c.toNat = 32 := by rw [h]; rfl
    omega
  · have : c.toNat = 9 := by rw [h]; rfl
    omega
  · have : c.toNat = 10 := by rw [h]; rfl
    omega
  · have : c.toNat = 13 := by rw [h]; rfl
    omega
  all_goals omega

/-- No whitespace character belongs to any of the redactor's character
classes, and all are fixed by `toLower`. -/
theorem ws_props (c : Char) (h : isJsSpace c = true) :
    isAlnum c = false ∧ isB64Char c = false ∧ isXoxbChar c = false ∧
    isAIzaChar c = false ∧ isTokenChar c = false ∧ Char.toLower c = c := by
  rcases ws_enum_flat c h with h|h|h|h|h|h|h|h|h|h|h|h|h|h|h|h|h|h|h|h|h|h|h|h|h <;>
    (have hc : c = Char.ofNat c.toNat := (Char.ofNat_toNat c).symm
     rw [h] at hc
     subst hc
     exact ⟨by decide, by decide, by decide, by decide, by decide, by decide⟩)

/-- A run bounded on both sides by a non-class character ignores what comes
after that character. -/
theorem twc_nb_eq (p : Char → Bool) (x : List Char) (c d : Char) (y z : List Char)
    (hc : p c = false) (hd : p d = false) :
    takeWhileCount p (x ++ c :: y) = takeWhileCount p (x ++ d :: z) := by
  by_cases h : takeWhileCount p x < x.length
  · rw [twc_append_lt p x (c :: y) h, twc_append_lt p x (d :: z) h]
  · have hx : takeWhileCount p x = x.length :=
      Nat.le_antisymm (twc_le_length p x) (Nat.le_of_not_lt h)
    have hall : ∀ e ∈ x, p e = true := by
      intro e he
      have := twc_take_sat p x
      rw [hx, List.take_length] at this
      exact this e he
    rw [twc_append_all p x (c :: y) hall, twc_append_all p x (d :: z) hall]
    simp [takeWhileCount, hc, hd]

/-- A positive run whose first character lies in the left block stays
positive when the continuation changes. -/
theorem twc_head_pos (p : Char → Bool) (x y z : List Char)
    (hx : x ≠ []) (h : 1 ≤ takeWhileCount p (x ++ y)) :
    1 ≤ takeWhileCount p (x ++ z) := by
  cases x with
  | nil => exact absurd rfl hx
  | cons a as =>
    simp only [List.cons_append, takeWhileCount] at h ⊢
    split at h
    · rename_i hp
      simp only [hp, if_true]
      omega
    · omega

theorem chh_head {a : Char} {as : List Char} {c : Char} {rest : List Char}
    (h : charsHaveHead (a :: as) (c :: rest) = true) : c = a := by
  simp only [charsHaveHead, Bool.and_eq_true, beq_iff_eq] at h
  exact h.1.symm

theorem chhCI_head {a : Char} {as : List Char} {c : Char} {rest : List Char}
    (h : charsHaveHeadCI (a :: as) (c :: rest) = true) :
    Char.toLower c = Char.toLower a := by
  simp only [charsHaveHeadCI, Bool.and_eq_true, beq_iff_eq] at h
  exact h.1.symm

/-- A literal-prefix test determines the first `L.length` characters. -/
theorem chh_prefix_pull {L : List Char} :
    ∀ {u}, charsHaveHead L u = true → u.take L.length = L := by
  induction L with
  | nil => intro u _; simp
  | cons a as ih =>
    intro u h
    cases u with
    | nil => simp [charsHaveHead] at h
    | cons b bs =>
      simp only [charsHaveHead, Bool.and_eq_true, beq_iff_eq] at h
      simp only [List.length_cons, List.take_succ_cons, h.1, ih h.2]

/-- The case-insensitive literal test determines the lower-cased first
`L.length` characters. -/
theorem chhCI_prefix_pull {L : List Char} :
    ∀ {u}, charsHaveHeadCI L u = true →
      (u.take L.length).map Char.toLower = L.map Char.toLower := by
  induction L with
  | nil => intro u _; simp
  | cons a as ih =>
    intro u h
    cases u with
    | nil => simp [charsHaveHeadCI] at h
    | cons b bs =>
      simp only [charsHaveHeadCI, Bool.and_eq_true, beq_iff_eq] at h
      simp only [List.length_cons, List.take_succ_cons, List.map_cons, h.1, ih h.2]

theorem matchBearer_char (s : List Char) (k : Nat) (h : matchBearer s = some k) :
    charsHaveHeadCI "bearer".data s = true ∧
    1 ≤ takeWhileCount isJsSpace (s.drop 6) ∧
    1 ≤ takeWhileCount isTokenChar
      (s.drop (6 + takeWhileCount isJsSpace (s.drop 6))) := by
  simp only [matchBearer] at h
  split at h
  · split at h
    · split at h
      · rename_i h1 h2 h3
        exact ⟨h1, h2, h3⟩
      · exact absurd h (by simp)
    · exact absurd h (by simp)
  · exact absurd h (by simp)

theorem matchBearer_back (s : List Char)
    (h1 : charsHaveHeadCI "bearer".data s = true)
    (h2 : 1 ≤ takeWhileCount isJsSpace (s.drop 6))
    (h3 : 1 ≤ takeWhileCount isTokenChar
      (s.drop (6 + takeWhileCount isJsSpace (s.drop 6)))) : matchBearer s ≠ none := by
  simp [matchBearer, h1, h2, h3]

theorem matchBearer_transfer :
    ∀ t u, AgreesUB t u → matchBearer u = none → matchBearer t = none := by
  intro t u haub hu
  rcases haub with rfl | ⟨w, t2, c', u2, rfl, rfl, hc'⟩
  · exact hu
  · cases hm : matchBearer (w ++ '[' :: t2) with
    | none => rfl
    | some k =>
      exfalso
      obtain ⟨hhd, hw1, htk⟩ := matchBearer_char _ k hm
      by_cases hwlit : w.length < 6
      · exact chhCI_noBracket (by decide) w.length hhd
          (by simpa using hwlit) (get_append_self w '[' t2)
      · have hwl : (6 : Nat) ≤ w.length := Nat.le_of_not_lt hwlit
        have hwl' : ("bearer".data).length ≤ w.length := by simpa using hwl
        have hdropt : (w ++ '[' :: t2).drop 6 = w.drop 6 ++ '[' :: t2 :=
          List.drop_append_of_le_length hwl
        have hdropu : (w ++ c' :: u2).drop 6 = w.drop 6 ++ c' :: u2 :=
          List.drop_append_of_le_length hwl
        have hw1eq : takeWhileCount isJsSpace ((w ++ c' :: u2).drop 6) =
            takeWhileCount isJsSpace ((w ++ '[' :: t2).drop 6) := by
          rw [hdropt, hdropu]
          exact twc_nb_eq isJsSpace (w.drop 6) c' '[' u2 t2 hc' (by decide)
        set w1 := takeWhileCount isJsSpace ((w ++ '[' :: t2).drop 6) with hw1def
        have hw1b : w1 ≤ w.length - 6 := by
          rw [hw1def, hdropt]
          have := twc_bound_bracket isJsSpace (w.drop 6) '[' t2 (by decide)
          simpa using this
        have hwl2 : 6 + w1 ≤ w.length := by omega
        have hdrop2t : (w ++ '[' :: t2).drop (6 + w1) =
            w.drop (6 + w1) ++ '[' :: t2 := List.drop_append_of_le_length hwl2
        have hdrop2u : (w ++ c' :: u2).drop (6 + w1) =
            w.drop (6 + w1) ++ c' :: u2 := List.drop_append_of_le_length hwl2
        have htkb : takeWhileCount isTokenChar ((w ++ '[' :: t2).drop (6 + w1)) ≤
            w.length - (6 + w1) := by
          rw [hdrop2t]
          have := twc_bound_bracket isTokenChar (w.drop (6 + w1)) '[' t2 (by decide)
          simpa using this
        have hwd_ne : w.drop (6 + w1) ≠ [] := by
          intro hnil
          rw [hdrop2t, hnil] at htk
          have hnb : isTokenChar '[' = false := by decide
          simp [takeWhileCount, hnb] at htk
        have hhd_u : charsHaveHeadCI "bearer".data (w ++ c' :: u2) = true := by
          have htake : (w ++ '[' :: t2).take w.length = w := List.take_left w _
          have := chhCI_take hhd w.length (c' :: u2) hwl'
          rwa [htake] at this
        have htk_u : 1 ≤ takeWhileCount isTokenChar
            ((w ++ c' :: u2).drop (6 + takeWhileCount isJsSpace ((w ++ c' :: u2).drop 6))) := by
          rw [hw1eq, hdrop2u]
          apply twc_head_pos isTokenChar (w.drop (6 + w1)) ('[' :: t2) (c' :: u2) hwd_ne
          rw [← hdrop2t]
          exact htk
        have hw1_u : 1 ≤ takeWhileCount isJsSpace ((w ++ c' :: u2).drop 6) := by
          rw [hw1eq]
          exact hw1
        exact matchBearer_back _ hhd_u hw1_u htk_u hu

theorem matchAnthropic_char (s : List Char) (k : Nat) (h : matchAnthropic s = some k) :
    charsHaveHeadCI "anthropic_api_key".data s = true ∧
    ∃ rest, s.drop (17 + takeWhileCount isJsSpace (s.drop 17)) = '=' :: rest ∧
      1 ≤ takeWhileCount (fun c => !isJsSpace c)
        (rest.drop (takeWhileCount isJsSpace rest)) := by
  simp only [matchAnthropic] at h
  split at h
  · rename_i h1
    split at h
    · rename_i rest heq
      split at h
      · rename_i h3
        exact ⟨h1, rest, heq, h3⟩
      · exact absurd h (by simp)
    · exact absurd h (by simp)
  · exact absurd h (by simp)

theorem matchAnthropic_back (s : List Char) (rest : List Char)
    (h1 : charsHaveHeadCI "anthropic_api_key".data s = true)
    (h2 : s.drop (17 + takeWhileCount isJsSpace (s.drop 17)) = '=' :: rest)
    (h3 : 1 ≤ takeWhileCount (fun c => !isJsSpace c)
        (rest.drop (takeWhileCount isJsSpace rest))) : matchAnthropic s ≠ none := by
  simp [matchAnthropic, h1, h2, h3]

theorem matchAnthropic_transfer :
    ∀ t u, AgreesUB t u → matchAnthropic u = none → matchAnthropic t = none := by
  intro t u haub hu
  rcases haub with rfl | ⟨w, t2, c', u2, rfl, rfl, hc'⟩
  · exact hu
  · cases hm : matchAnthropic (w ++ '[' :: t2) with
    | none => rfl
    | some k =>
      exfalso
      obtain ⟨hhd, rest_t, hscrut, htn⟩ := matchAnthropic_char _ k hm
      by_cases hwlit : w.length < 17
      · exact chhCI_noBracket (by decide) w.length hhd
          (by simpa using hwlit) (get_append_self w '[' t2)
      · have hwl : (17 : Nat) ≤ w.length := Nat.le_of_not_lt hwlit
        have hwl' : ("anthropic_api_key".data).length ≤ w.length := by simpa using hwl
        have hdropt : (w ++ '[' :: t2).drop 17 = w.drop 17 ++ '[' :: t2 :=
          List.drop_append_of_le_length hwl
        have hdropu : (w ++ c' :: u2).drop 17 = w.drop 17 ++ c' :: u2 :=
          List.drop_append_of_le_length hwl
        set W1 := takeWhileCount isJsSpace ((w ++ '[' :: t2).drop 17) with hW1def
        have hw1eq : takeWhileCount isJsSpace ((w ++ c' :: u2).drop 17) = W1 := by
          rw [hW1def, hdropt, hdropu]
          exact twc_nb_eq isJsSpace (w.drop 17) c' '[' u2 t2 hc' (by decide)
        have hw1b : W1 ≤ w.length - 17 := by
          rw [hW1def, hdropt]
          have := twc_bound_bracket isJsSpace (w.drop 17) '[' t2 (by decide)
          simpa using this
        have hwl2 : 17 + W1 ≤ w.length := by omega
        have hdrop2t : (w ++ '[' :: t2).drop (17 + W1) =
            w.drop (17 + W1) ++ '[' :: t2 := List.drop_append_of_le_length hwl2
        have hdrop2u : (w ++ c' :: u2).drop (17 + W1) =
            w.drop (17 + W1) ++ c' :: u2 := List.drop_append_of_le_length hwl2
        rw [hdrop2t] at hscrut
        cases hwd : w.drop (17 + W1) with
        | nil =>
          rw [hwd, List.nil_append] at hscrut
          exact absurd hscrut (by simp)
        | cons e w' =>
          rw [hwd, List.cons_append] at hscrut
          simp only [List.cons.injEq] at hscrut
          obtain ⟨he, hrt'⟩ := hscrut
          have hrt : rest_t = w' ++ '[' :: t2 := hrt'.symm
          have hhd_u : charsHaveHeadCI "anthropic_api_key".data (w ++ c' :: u2) = true := by
            have htake : (w ++ '[' :: t2).take w.length = w := List.take_left w _
            have := chhCI_take hhd w.length (c' :: u2) hwl'
            rwa [htake] at this
          have hscrut_u : (w ++ c' :: u2).drop
              (17 + takeWhileCount isJsSpace ((w ++ c' :: u2).drop 17)) =
              '=' :: (w' ++ c' :: u2) := by
            rw [hw1eq, hdrop2u, hwd, he, List.cons_append]
          set rest_u := w' ++ c' :: u2 with hrudef
          rw [hrt] at htn
          set W2 := takeWhileCount isJsSpace (w' ++ '[' :: t2) with hW2def
          have hw2eq : takeWhileCount isJsSpace rest_u = W2 := by
            rw [hrudef, hW2def]
            exact twc_nb_eq isJsSpace w' c' '[' u2 t2 hc' (by decide)
          have hw2b : W2 ≤ w'.length := by
            rw [hW2def]
            exact twc_bound_bracket isJsSpace w' '[' t2 (by decide)
          have hdrop3t : (w' ++ '[' :: t2).drop W2 = w'.drop W2 ++ '[' :: t2 :=
            List.drop_append_of_le_length hw2b
          have hdrop3u : rest_u.drop W2 = w'.drop W2 ++ c' :: u2 :=
            List.drop_append_of_le_length hw2b
          have htn_u : 1 ≤ takeWhileCount (fun c => !isJsSpace c)
              (rest_u.drop (takeWhileCount isJsSpace rest_u)) := by
            rw [hw2eq, hdrop3u]
            cases hw'd : w'.drop W2 with
            | nil =>
              simp only [List.nil_append, takeWhileCount, hc', Bool.not_false, if_true]
              omega
            | cons f w'' =>
              have htn' : 1 ≤ takeWhileCount (fun c => !isJsSpace c)
                  ((f :: w'') ++ '[' :: t2) := by
                rw [← hw'd, ← hdrop3t]
                exact htn
              have := twc_head_pos (fun c => !isJsSpace c) (f :: w'') ('[' :: t2)
                (c' :: u2) (by simp) htn'
              simpa using this
          exact matchAnthropic_back _ rest_u hhd_u hscrut_u htn_u hu

theorem lnsAux_some_acc :
    ∀ (l : List Char) (i x : Nat), lastNonSpaceIdxAux l i (some x) ≠ none := by
  intro l
  induction l with
  | nil =>
    intro i x h
    exact absurd h (by simp [lastNonSpaceIdxAux])
  | cons c rest ih =>
    intro i x
    simp only [lastNonSpaceIdxAux]
    split
    · exact ih (i + 1) i
    · exact ih (i + 1) x

/-- A window holding a non-space character has a last non-space index. -/
theorem lns_some_of_mem (l : List Char) (hex : ∃ c ∈ l, isJsSpace c = false) :
    lastNonSpaceIdx l ≠ none := by
  have main : ∀ (l : List Char), (∃ c ∈ l, isJsSpace c = false) →
      ∀ (i : Nat) (acc : Option Nat), lastNonSpaceIdxAux l i acc ≠ none := by
    intro l
    induction l with
    | nil =>
      rintro ⟨c, hc, _⟩ _ _
      simp at hc
    | cons c rest ih =>
      rintro ⟨d, hd, hws⟩ i acc
      simp only [lastNonSpaceIdxAux]
      rcases List.mem_cons.mp hd with rfl | hdr
      · rw [hws]
        simp only [Bool.not_false, if_true]
        exact lnsAux_some_acc rest (i + 1) i
      · exact ih ⟨d, hdr, hws⟩ (i + 1) _
  exact main l hex 0 none

theorem matchPassword_char (s : List Char) (k : Nat) (h : matchPassword s = some k) :
    charsHaveHeadCI "password".data s = true ∧
    1 ≤ takeWhileCount isSepChar (s.drop 8) := by
  simp only [matchPassword] at h
  split at h
  · split at h
    · rename_i h1 h2
      exact ⟨h1, h2⟩
    · exact absurd h (by simp)
  · exact absurd h (by simp)

theorem matchPassword_backA (s : List Char) (d : Char) (tail : List Char)
    (h1 : charsHaveHeadCI "password".data s = true)
    (h2 : 1 ≤ takeWhileCount isSepChar (s.drop 8))
    (h3 : s.drop (8 + takeWhileCount isSepChar (s.drop 8)) = d :: tail)
    (h4 : 1 ≤ takeWhileCount (fun c => !isJsSpace c) (d :: tail)) :
    matchPassword s ≠ none := by
  simp [matchPassword, h1, h2, h3, h4]

theorem matchPassword_backB (s : List Char)
    (h1 : charsHaveHeadCI "password".data s = true)
    (h2 : 1 ≤ takeWhileCount isSepChar (s.drop 8))
    (h3 : s.drop (8 + takeWhileCount isSepChar (s.drop 8)) = [])
    (h4 : lastNonSpaceIdx
      ((s.drop 9).take (takeWhileCount isSepChar (s.drop 8) - 1)) ≠ none) :
    matchPassword s ≠ none := by
  obtain ⟨j, hj⟩ := Option.ne_none_iff_exists'.mp h4
  simp [matchPassword, h1, h2, h3, hj]

theorem matchPassword_transfer :
    ∀ t u, AgreesUB t u → matchPassword u = none → matchPassword t = none := by
  intro t u haub hu
  rcases haub with rfl | ⟨w, t2, c', u2, rfl, rfl, hc'⟩
  · exact hu
  · cases hm : matchPassword (w ++ '[' :: t2) with
    | none => rfl
    | some k =>
      exfalso
      obtain ⟨hhd, hm1⟩ := matchPassword_char _ k hm
      by_cases hwlit : w.length < 8
      · exact chhCI_noBracket (by decide) w.length hhd
          (by simpa using hwlit) (get_append_self w '[' t2)
      · have hwl : (8 : Nat) ≤ w.length := Nat.le_of_not_lt hwlit
        have hwl' : ("password".data).length ≤ w.length := by simpa using hwl
        have hdropt : (w ++ '[' :: t2).drop 8 = w.drop 8 ++ '[' :: t2 :=
          List.drop_append_of_le_length hwl
        have hdropu : (w ++ c' :: u2).drop 8 = w.drop 8 ++ c' :: u2 :=
          List.drop_append_of_le_length hwl
        rw [hdropt] at hm1
        have hmtb : takeWhileCount isSepChar (w.drop 8 ++ '[' :: t2) ≤ w.length - 8 := by
          have := twc_bound_bracket isSepChar (w.drop 8) '[' t2 (by decide)
          simpa using this
        have hw9 : 9 ≤ w.length := by omega
        have hwd8ne : w.drop 8 ≠ [] := by
          have : (w.drop 8).length = w.length - 8 := by simp
          intro hnil
          rw [hnil] at this
          simp at this
          omega
        have hhd_u : charsHaveHeadCI "password".data (w ++ c' :: u2) = true := by
          have htake : (w ++ '[' :: t2).take w.length = w := List.take_left w _
          have := chhCI_take hhd w.length (c' :: u2) hwl'
          rwa [htake] at this
        have hmu1 : 1 ≤ takeWhileCount isSepChar ((w ++ c' :: u2).drop 8) := by
          rw [hdropu]
          exact twc_head_pos isSepChar (w.drop 8) ('[' :: t2) (c' :: u2) hwd8ne hm1
        set mu := takeWhileCount isSepChar ((w ++ c' :: u2).drop 8) with hmudef
        cases hrest : (w ++ c' :: u2).drop (8 + mu) with
        | cons d tail =>
          have hlen : 8 + mu < (w ++ c' :: u2).length := by
            have := congrArg List.length hrest
            simp only [List.length_drop, List.length_cons] at this
            omega
          have hmu_lt : mu < ((w ++ c' :: u2).drop 8).length := by
            simp only [List.length_drop]
            omega
          obtain ⟨d', hget, hdns⟩ := twc_stop isSepChar ((w ++ c' :: u2).drop 8)
            (by rw [← hmudef]; exact hmu_lt)
          rw [← hmudef] at hget
          have hdd : d = d' := by
            have h1' : ((w ++ c' :: u2).drop 8).get? mu =
                ((w ++ c' :: u2).drop (8 + mu)).get? 0 := by
              rw [List.get?_drop, List.get?_drop]
              congr 1
            rw [hget, hrest] at h1'
            injection h1'.symm
          subst hdd
          have hdnsp : isJsSpace d = false := by
            cases hws : isJsSpace d
            · rfl
            · have : isSepChar d = true := by simp [isSepChar, hws]
              rw [this] at hdns
              exact absurd hdns (by simp)
          have h4 : 1 ≤ takeWhileCount (fun c => !isJsSpace c) (d :: tail) := by
            simp [takeWhileCount, hdnsp]
          exact matchPassword_backA _ d tail hhd_u hmu1 hrest h4 hu
        | nil =>
          have hmu_eq : (w ++ c' :: u2).length ≤ 8 + mu := by
            have := congrArg List.length hrest
            simp only [List.length_drop, List.length_nil] at this
            omega
          have hdrop9 : (w ++ c' :: u2).drop 9 = w.drop 9 ++ c' :: u2 :=
            List.drop_append_of_le_length hw9
          have hgetc' : ((w ++ c' :: u2).drop 9).get? (w.length - 9) = some c' := by
            rw [hdrop9]
            have hl9 : (w.drop 9).length = w.length - 9 := by simp
            rw [← hl9]
            exact get_append_self (w.drop 9) c' u2
          have hidx : w.length - 9 < mu - 1 := by
            simp only [List.length_append, List.length_cons] at hmu_eq
            omega
          have hmem : c' ∈ ((w ++ c' :: u2).drop 9).take (mu - 1) := by
            have hgt : (((w ++ c' :: u2).drop 9).take (mu - 1)).get? (w.length - 9) =
                ((w ++ c' :: u2).drop 9).get? (w.length - 9) := List.get?_take hidx
            rw [hgetc'] at hgt
            exact List.get?_mem hgt
          exact matchPassword_backB _ hhd_u hmu1 hrest
            (lns_some_of_mem _ ⟨c', hmem, hc'⟩) hu

/-- Every nonempty suffix of the replacement text contains `]`. -/
theorem redacted_tails_mem : ∀ x ∈ redactedTxt.tails, x ≠ [] → ']' ∈ x := by decide

/-- No literal free of `]` whose occurrences are not hidden in the
replacement text can start matching inside an occurrence of the
replacement text. -/
theorem chh_false_of_suffix {lit : List Char}
    (hf1 : ∀ x ∈ redactedTxt.tails, lit.length ≤ x.length → x.take lit.length ≠ lit)
    (hf2 : ']' ∉ lit) :
    ∀ t v, t <:+ redactedTxt → t ≠ [] → charsHaveHead lit (t ++ v) = false := by
  intro t v ht htne
  cases hchh : charsHaveHead lit (t ++ v)
  · rfl
  · exfalso
    have hp := chh_prefix_pull hchh
    have htails : t ∈ redactedTxt.tails := (List.mem_tails _ _).mpr ht
    rcases Nat.lt_or_ge t.length lit.length with hlt | hge
    · have ht_eq : t = lit.take t.length := by
        calc t = (t ++ v).take t.length := (List.take_left t v).symm
          _ = ((t ++ v).take lit.length).take t.length := by
              rw [List.take_take]
              congr 1
              omega
          _ = lit.take t.length := by rw [hp]
      have hmem : ']' ∈ t := redacted_tails_mem t htails htne
      rw [ht_eq] at hmem
      exact hf2 (List.take_subset _ _ hmem)
    · have htk : (t ++ v).take lit.length = t.take lit.length :=
        List.take_append_of_le_length hge
      rw [htk] at hp
      exact hf1 t htails hge hp

/-- Case-insensitive version of the previous lemma. -/
theorem chhCI_false_of_suffix {lit : List Char}
    (hf1 : ∀ x ∈ redactedTxt.tails, lit.length ≤ x.length →
      (x.take lit.length).map Char.toLower ≠ lit.map Char.toLower)
    (hf2 : ']' ∉ lit.map Char.toLower) :
    ∀ t v, t <:+ redactedTxt → t ≠ [] → charsHaveHeadCI lit (t ++ v) = false := by
  intro t v ht htne
  cases hchh : charsHaveHeadCI lit (t ++ v)
  · rfl
  · exfalso
    have hp := chhCI_prefix_pull hchh
    have htails : t ∈ redactedTxt.tails := (List.mem_tails _ _).mpr ht
    rcases Nat.lt_or_ge t.length lit.length with hlt | hge
    · have ht_eq : t.map Char.toLower = (lit.map Char.toLower).take t.length := by
        have hp' := hp
        simp only [List.map_take] at hp'
        have h1 : (((t ++ v).take lit.length).take t.length).map Char.toLower =
            ((lit.map Char.toLower).take t.length) := by
          simp only [List.map_take]
          rw [hp']
        have h2 : ((t ++ v).take lit.length).take t.length = t := by
          rw [List.take_take]
          have : min t.length lit.length = t.length := by omega
          rw [this, List.take_left]
        rw [h2] at h1
        exact h1
      have hmem : ']' ∈ t := redacted_tails_mem t htails htne
      have hmem2 : ']' ∈ t.map Char.toLower := by
        have : Char.toLower ']' = ']' := by decide
        exact this ▸ List.mem_map_of_mem Char.toLower hmem
      rw [ht_eq] at hmem2
      exact hf2 (List.take_subset _ _ hmem2)
    · have htk : (t ++ v).take lit.length = t.take lit.length :=
        List.take_append_of_le_length hge
      rw [htk] at hp
      exact hf1 t htails hge hp

theorem matchSk_rs : ∀ t v, t <:+ redactedTxt → t ≠ [] → matchSk (t ++ v) = none := by
  intro t v ht htne
  have hf := @chh_false_of_suffix "sk-".data (by decide) (by decide) t v ht htne
  simp [matchSk, hf]

theorem matchGhp_rs : ∀ t v, t <:+ redactedTxt → t ≠ [] → matchGhp (t ++ v) = none := by
  intro t v ht htne
  have hf := @chh_false_of_suffix "ghp_".data (by decide) (by decide) t v ht htne
  simp [matchGhp, hf]

theorem matchXoxb_rs : ∀ t v, t <:+ redactedTxt → t ≠ [] → matchXoxb (t ++ v) = none := by
  intro t v ht htne
  have hf := @chh_false_of_suffix "xoxb-".data (by decide) (by decide) t v ht htne
  simp [matchXoxb, hf]

theorem matchBearer_rs : ∀ t v, t <:+ redactedTxt → t ≠ [] →
    matchBearer (t ++ v) = none := by
  intro t v ht htne
  have hf := @chhCI_false_of_suffix "bearer".data (by decide) (by decide) t v ht htne
  simp [matchBearer, hf]

theorem matchAnthropic_rs : ∀ t v, t <:+ redactedTxt → t ≠ [] →
    matchAnthropic (t ++ v) = none := by
  intro t v ht htne
  have hf := @chhCI_false_of_suffix "anthropic_api_key".data
    (by decide) (by decide) t v ht htne
  simp [matchAnthropic, hf]

theorem matchPassword_rs : ∀ t v, t <:+ redactedTxt → t ≠ [] →
    matchPassword (t ++ v) = none := by
  intro t v ht htne
  have hf := @chhCI_false_of_suffix "password".data
    (by decide) (by decide) t v ht htne
  simp [matchPassword, hf]

theorem matchAIza_rs : ∀ t v, t <:+ redactedTxt → t ≠ [] → matchAIza (t ++ v) = none := by
  intro t v ht htne
  have hf := @chh_false_of_suffix "AIza".data (by decide) (by decide) t v ht htne
  simp [matchAIza, hf]

theorem matchSk_start : ∀ c rest k, matchSk (c :: rest) = some k →
    isJsSpace c = false := by
  intro c rest k h
  have h1 : charsHaveHead ('s' :: "k-".data) (c :: rest) = true := (matchSk_char _ _ h).1
  have hc : c = 's' := chh_head h1
  subst hc
  decide

theorem matchGhp_start : ∀ c rest k, matchGhp (c :: rest) = some k →
    isJsSpace c = false := by
  intro c rest k h
  have h1 : charsHaveHead ('g' :: "hp_".data) (c :: rest) = true := (matchGhp_char _ _ h).1
  have hc : c = 'g' := chh_head h1
  subst hc
  decide

theorem matchXoxb_start : ∀ c rest k, matchXoxb (c :: rest) = some k →
    isJsSpace c = false := by
  intro c rest k h
  have h1 : charsHaveHead ('x' :: "oxb-".data) (c :: rest) = true := (matchXoxb_char _ _ h).1
  have hc : c = 'x' := chh_head h1
  subst hc
  decide

theorem matchAIza_start : ∀ c rest k, matchAIza (c :: rest) = some k →
    isJsSpace c = false := by
  intro c rest k h
  have h1 : charsHaveHead ('A' :: "Iza".data) (c :: rest) = true := (matchAIza_char _ _ h).1
  have hc : c = 'A' := chh_head h1
  subst hc
  decide

theorem matchBearer_start : ∀ c rest k, matchBearer (c :: rest) = some k →
    isJsSpace c = false := by
  intro c rest k h
  have h1 : charsHaveHeadCI ('b' :: "earer".data) (c :: rest) = true :=
    (matchBearer_char _ _ h).1
  have hcl : Char.toLower c = Char.toLower 'b' := chhCI_head h1
  cases hws : isJsSpace c
  · rfl
  · exfalso
    have h6 := (ws_props c hws).2.2.2.2.2
    rw [h6, show Char.toLower 'b' = 'b' from by decide] at hcl
    subst hcl
    exact absurd hws (by decide)

theorem matchAnthropic_start : ∀ c rest k, matchAnthropic (c :: rest) = some k →
    isJsSpace c = false := by
  intro c rest k h
  have h1 : charsHaveHeadCI ('a' :: "nthropic_api_key".data) (c :: rest) = true :=
    (matchAnthropic_char _ _ h).1
  have hcl : Char.toLower c = Char.toLower 'a' := chhCI_head h1
  cases hws : isJsSpace c
  · rfl
  · exfalso
    have h6 := (ws_props c hws).2.2.2.2.2
    rw [h6, show Char.toLower 'a' = 'a' from by decide] at hcl
    subst hcl
    exact absurd hws (by decide)

theorem matchPassword_start : ∀ c rest k, matchPassword (c :: rest) = some k →
    isJsSpace c = false := by
  intro c rest k h
  have h1 : charsHaveHeadCI ('p' :: "assword".data) (c :: rest) = true :=
    (matchPassword_char _ _ h).1
  have hcl : Char.toLower c = Char.toLower 'p' := chhCI_head h1
  cases hws : isJsSpace c
  · rfl
  · exfalso
    have h6 := (ws_props c hws).2.2.2.2.2
    rw [h6, show Char.toLower 'p' = 'p' from by decide] at hcl
    subst hcl
    exact absurd hws (by decide)

theorem matchB64_run (s : List Char) (k : Nat) (h : matchB64 s = some k) :
    40 ≤ takeWhileCount isB64Char s := by
  simp only [matchB64] at h
  split at h
  · rename_i hh
    exact hh
  · exact absurd h (by simp)

theorem matchB64_start : ∀ c rest k, matchB64 (c :: rest) = some k →
    isJsSpace c = false := by
  intro c rest k h
  have h40 := matchB64_run _ k h
  have hb : isB64Char c = true := by
    cases hbc : isB64Char c
    · rw [takeWhileCount, hbc] at h40
      simp at h40
    · rfl
  cases hws : isJsSpace c
  · rfl
  · have := (ws_props c hws).2.1
    rw [this] at hb
    exact absurd hb (by simp)

theorem matchSk_posLen (s : List Char) : matchSk s ≠ some 0 := by
  simp only [matchSk]
  split
  · split
    · intro h
      injection h with h'
      omega
    · simp
  · simp

theorem matchGhp_posLen (s : List Char) : matchGhp s ≠ some 0 := by
  simp only [matchGhp]
  split
  · split
    · intro h
      injection h with h'
      omega
    · simp
  · simp

theorem matchXoxb_posLen (s : List Char) : matchXoxb s ≠ some 0 := by
  simp only [matchXoxb]
  split
  · split
    · intro h
      injection h with h'
      omega
    · simp
  · simp

theorem matchBearer_posLen (s : List Char) : matchBearer s ≠ some 0 := by
  simp only [matchBearer]
  split
  · split
    · split
      · intro h
        injection h with h'
        omega
      · simp
    · simp
  · simp

theorem matchAnthropic_posLen (s : List Char) : matchAnthropic s ≠ some 0 := by
  simp only [matchAnthropic]
  split
  · split
    · split
      · intro h
        injection h with h'
        omega
      · simp
    · simp
  · simp

theorem matchPassword_posLen (s : List Char) : matchPassword s ≠ some 0 := by
  simp only [matchPassword]
  split
  · split
    · split
      · split
        · intro h
          injection h with h'
          omega
        · simp
      · split
        · intro h
          injection h with h'
          omega
        · simp
    · simp
  · simp

theorem matchAIza_posLen (s : List Char) : matchAIza s ≠ some 0 := by
  simp only [matchAIza]
  split
  · split
    · intro h
      injection h with h'
      omega
    · simp
  · simp

theorem matchSk_nil : matchSk [] = none := by decide

theorem matchGhp_nil : matchGhp [] = none := by decide

theorem matchXoxb_nil : matchXoxb [] = none := by decide

theorem matchBearer_nil : matchBearer [] = none := by decide

theorem matchAnthropic_nil : matchAnthropic [] = none := by decide

theorem matchPassword_nil : matchPassword [] = none := by decide

theorem matchAIza_nil : matchAIza [] = none := by decide

theorem matchB64_none (s : List Char) (h : takeWhileCount isB64Char s < 40) :
    matchB64 s = none := by
  simp [matchB64, Nat.not_le.mpr h]

theorem matchB64_lt_of_none (s : List Char) (h : matchB64 s = none) :
    takeWhileCount isB64Char s < 40 := by
  simp only [matchB64] at h
  split at h
  · exact absurd h (by simp)
  · omega

theorem matchB64_char (s : List Char) (k : Nat) (h : matchB64 s = some k) :
    40 ≤ takeWhileCount isB64Char s ∧
    k = takeWhileCount isB64Char s +
      min 2 (takeWhileCount (fun c => c == '=')
        (s.drop (takeWhileCount isB64Char s))) := by
  simp only [matchB64] at h
  split at h
  · rename_i h40
    refine ⟨h40, ?_⟩
    injection h with h'
    omega
  · exact absurd h (by simp)

theorem twc_head_zero (p : Char → Bool) (d : Char) (l : List Char)
    (hd : p d = false) : takeWhileCount p (d :: l) = 0 := by
  simp [takeWhileCount, hd]

/-- The base64 pass leaves the head character in place or puts a `[` there:
on no match the head is copied, on a kept low-entropy match the slice
starts with the head, and on a redacted match the output starts with `[`. -/
theorem f8_head_cases (d : Char) (Dt : List Char) :
    (∃ tail0, replaceAll matchB64 b64Repl (d :: Dt) = d :: tail0) ∨
    (∃ tail0, replaceAll matchB64 b64Repl (d :: Dt) = '[' :: tail0) := by
  rw [replaceAll_cons]
  cases hm : matchB64 (d :: Dt) with
  | none => exact Or.inl ⟨replaceAll matchB64 b64Repl Dt, rfl⟩
  | some K =>
    obtain ⟨h40, hkval⟩ := matchB64_char _ K hm
    have hK1 : 1 ≤ K := by
      have := twc_le_length isB64Char (d :: Dt)
      omega
    obtain ⟨K', rfl⟩ : ∃ K', K = K' + 1 := ⟨K - 1, by omega⟩
    by_cases hhe : looksHighEntropy ((d :: Dt).take (K' + 1))
    · have hb : b64Repl ((d :: Dt).take (K' + 1)) = redactedTxt := by
        have hhe' := hhe
        simp only [List.take_succ_cons] at hhe'
        simp [b64Repl, List.take_succ_cons, hhe']
      refine Or.inr ⟨"REDACTED]".data ++
        replaceAll matchB64 b64Repl ((d :: Dt).drop (K' + 1)), ?_⟩
      show b64Repl ((d :: Dt).take (K' + 1)) ++
        replaceAll matchB64 b64Repl ((d :: Dt).drop (K' + 1)) = _
      rw [hb]
      rfl
    · have hb : b64Repl ((d :: Dt).take (K' + 1)) = (d :: Dt).take (K' + 1) := by
        have hhe' := hhe
        simp only [List.take_succ_cons] at hhe'
        simp [b64Repl, List.take_succ_cons, hhe']
      refine Or.inl ⟨Dt.take K' ++
        replaceAll matchB64 b64Repl ((d :: Dt).drop (K' + 1)), ?_⟩
      show b64Repl ((d :: Dt).take (K' + 1)) ++
        replaceAll matchB64 b64Repl ((d :: Dt).drop (K' + 1)) = _
      rw [hb]
      rfl

/-- A text whose head base64 run is short keeps that run under the base64
pass. -/
theorem f8_run_preserved :
    ∀ s : List Char, takeWhileCount isB64Char s < 40 →
      takeWhileCount isB64Char (replaceAll matchB64 b64Repl s) =
        takeWhileCount isB64Char s := by
  have main : ∀ (n : Nat) (s : List Char), s.length ≤ n →
      takeWhileCount isB64Char s < 40 →
      takeWhileCount isB64Char (replaceAll matchB64 b64Repl s) =
        takeWhileCount isB64Char s := by
    intro n
    induction n with
    | zero =>
      intro s hs _
      have : s = [] := List.length_eq_zero.mp (Nat.le_zero.mp hs)
      subst this
      rfl
    | succ n ih =>
      intro s hs hlt
      cases s with
      | nil => rfl
      | cons c rest =>
        have hm : matchB64 (c :: rest) = none := matchB64_none _ hlt
        rw [replaceAll_cons, hm]
        cases hbc : isB64Char c with
        | false => rw [twc_head_zero _ _ _ hbc, twc_head_zero _ _ _ hbc]
        | true =>
          have hrest : takeWhileCount isB64Char rest < 40 := by
            rw [takeWhileCount, hbc] at hlt
            simp at hlt
            omega
          have hlen : rest.length ≤ n := by
            simp only [List.length_cons] at hs
            omega
          simp only [takeWhileCount, hbc, if_true, ih rest hlen hrest]
  exact fun s h => main s.length s (Nat.le_refl _) h

theorem allId_of_suffix {m : List Char → Option Nat} {repl : List Char → List Char}
    {s t : List Char} (h : AllId m repl s) (hts : t <:+ s) : AllId m repl t :=
  fun t' ht' => h t' (ht'.trans hts)

/-- A pass whose replacement keeps every matched slice is the identity. -/
theorem replaceAll_eq_self_of_allId (m : List Char → Option Nat)
    (repl : List Char → List Char) :
    ∀ s, AllId m repl s → replaceAll m repl s = s := by
  have main : ∀ (n : Nat) (s : List Char), s.length ≤ n → AllId m repl s →
      replaceAll m repl s = s := by
    intro n
    induction n with
    | zero =>
      intro s hs _
      have : s = [] := List.length_eq_zero.mp (Nat.le_zero.mp hs)
      subst this
      rfl
    | succ n ih =>
      intro s hs hall
      cases s with
      | nil => rfl
      | cons c rest =>
        rw [replaceAll_cons]
        cases hm : m (c :: rest) with
        | none =>
          have hrest : replaceAll m repl rest = rest := by
            apply ih rest (by simpa using Nat.le_of_succ_le_succ (by simpa using hs))
            exact allId_of_suffix hall (List.suffix_cons c rest)
          simp [hrest]
        | some K =>
          cases K with
          | zero =>
            have hrest : replaceAll m repl rest = rest := by
              apply ih rest (by simpa using Nat.le_of_succ_le_succ (by simpa using hs))
              exact allId_of_suffix hall (List.suffix_cons c rest)
            simp [hrest]
          | succ k =>
            have hid := hall (c :: rest) List.suffix_rfl (k + 1) hm
            have hrec : replaceAll m repl ((c :: rest).drop (k + 1)) =
                (c :: rest).drop (k + 1) := by
              apply ih
              · simp only [List.length_drop, List.length_cons]
                simp only [List.length_cons] at hs
                omega
              · exact allId_of_suffix hall (List.drop_suffix _ _)
            simp only [hid, hrec, List.take_append_drop]
  exact fun s h => main s.length s (Nat.le_refl _) h

theorem mem_uniqChars :
    ∀ (l seen : List Char) (c : Char), c ∈ uniqChars l seen ↔ c ∈ l ∨ c ∈ seen := by
  intro l
  induction l with
  | nil =>
    intro seen c
    simp [uniqChars]
  | cons a rest ih =>
    intro seen c
    simp only [uniqChars]
    split
    · rename_i hct
      have ha : a ∈ seen := by simpa using hct
      rw [ih]
      simp only [List.mem_cons]
      constructor
      · tauto
      · rintro ((rfl | h) | h)
        · exact Or.inr ha
        · exact Or.inl h
        · exact Or.inr h
    · rw [ih]
      simp only [List.mem_cons]
      tauto

theorem nodup_uniqChars :
    ∀ (l seen : List Char), seen.Nodup → (uniqChars l seen).Nodup := by
  intro l
  induction l with
  | nil => intro seen h; exact h
  | cons a rest ih =>
    intro seen h
    simp only [uniqChars]
    split
    · exact ih seen h
    · rename_i hct
      have ha : a ∉ seen := by simpa using hct
      exact ih _ (List.nodup_cons.mpr ⟨ha, h⟩)

/-- Distinct-character count is monotone under taking a subset. -/
theorem uniq_length_mono {l l' : List Char} (hsub : ∀ c ∈ l', c ∈ l) :
    (uniqChars l' []).length ≤ (uniqChars l []).length := by
  have h1 : (uniqChars l' []).Nodup := nodup_uniqChars l' [] List.nodup_nil
  have h2 : uniqChars l' [] ⊆ uniqChars l [] := by
    intro c hc
    rw [mem_uniqChars] at hc ⊢
    rcases hc with hc | hc
    · exact Or.inl (hsub c hc)
    · simp at hc
  exact List.Subperm.length_le (List.Nodup.subperm h1 h2)

theorem lhe_false_mono {l l' : List Char} (hsub : ∀ c ∈ l', c ∈ l)
    (h : looksHighEntropy l = false) : looksHighEntropy l' = false := by
  simp only [looksHighEntropy, decide_eq_false_iff_not, Nat.not_le] at h ⊢
  have := uniq_length_mono hsub
  omega

theorem twc_append_le (p : Char → Bool) (w v : List Char)
    (hv : v = [] ∨ ∃ d0 v1, v = d0 :: v1 ∧ p d0 = false) :
    takeWhileCount p (w ++ v) ≤ w.length := by
  rcases hv with rfl | ⟨d0, v1, rfl, hd0⟩
  · rw [List.append_nil]
    exact twc_le_length p w
  · exact twc_bound_bracket p w d0 v1 hd0

theorem noHigh_nil_aux {t : List Char} (ht : t <:+ ([] : List Char)) :
    ∀ k, matchB64 t = some k → looksHighEntropy (t.take k) = false := by
  intro k hk
  have hte : t = [] := List.suffix_nil.mp ht
  subst hte
  have h0 : takeWhileCount isB64Char ([] : List Char) < 40 := by
    simp [takeWhileCount]
  rw [matchB64_none _ h0] at hk
  exact absurd hk (by simp)

/-- Every base64 match in the output of the base64 pass has a low-entropy
slice: redacted matches leave a bracketed block that no run crosses, kept
matches are low entropy and residual matches sit inside one of them. -/
theorem f8_noHigh : ∀ s : List Char, NoHigh (replaceAll matchB64 b64Repl s) := by
  have main : ∀ (n : Nat) (s : List Char), s.length ≤ n →
      NoHigh (replaceAll matchB64 b64Repl s) := by
    intro n
    induction n with
    | zero =>
      intro s hs
      have : s = [] := List.length_eq_zero.mp (Nat.le_zero.mp hs)
      subst this
      intro t ht
      exact noHigh_nil_aux ht
    | succ n ih =>
      intro s hs
      cases s with
      | nil =>
        intro t ht
        exact noHigh_nil_aux ht
      | cons c rest =>
        have hrestlen : rest.length ≤ n := by
          simp only [List.length_cons] at hs
          omega
        cases hm : matchB64 (c :: rest) with
        | none =>
          have hf8 : replaceAll matchB64 b64Repl (c :: rest) =
              c :: replaceAll matchB64 b64Repl rest := by
            rw [replaceAll_cons, hm]
          rw [hf8]
          intro t ht k hk
          rcases List.suffix_cons_iff.mp ht with rfl | htail
          · exfalso
            have hlt : takeWhileCount isB64Char (c :: rest) < 40 :=
              matchB64_lt_of_none _ hm
            have hlt2 : takeWhileCount isB64Char
                (c :: replaceAll matchB64 b64Repl rest) < 40 := by
              cases hbc : isB64Char c with
              | false =>
                rw [twc_head_zero _ _ _ hbc]
                omega
              | true =>
                rw [takeWhileCount, hbc] at hlt ⊢
                simp only [if_true] at hlt ⊢
                have hr : takeWhileCount isB64Char rest < 40 := by omega
                rw [f8_run_preserved rest hr]
                omega
            rw [matchB64_none _ hlt2] at hk
            exact absurd hk (by simp)
          · exact ih rest hrestlen t htail k hk
        | some K =>
          obtain ⟨h40, hkval⟩ := matchB64_char _ K hm
          obtain ⟨K', rfl⟩ : ∃ K'', K = K'' + 1 := ⟨K - 1, by omega⟩
          have hf8 : replaceAll matchB64 b64Repl (c :: rest) =
              b64Repl ((c :: rest).take (K' + 1)) ++
                replaceAll matchB64 b64Repl ((c :: rest).drop (K' + 1)) := by
            rw [replaceAll_cons, hm]
          have hDlen : ((c :: rest).drop (K' + 1)).length ≤ n := by
            simp only [List.length_drop, List.length_cons]
            omega
          have hND := ih _ hDlen
          rw [hf8]
          by_cases hhe : looksHighEntropy ((c :: rest).take (K' + 1)) = true
          · have hrepl : b64Repl ((c :: rest).take (K' + 1)) = redactedTxt := by
              simp only [b64Repl, hhe, if_true]
            rw [hrepl]
            set F := replaceAll matchB64 b64Repl ((c :: rest).drop (K' + 1)) with hF
            intro t ht k hk
            rcases suffix_append_cases ht with htail | ⟨y, hy, hyne, rfl⟩
            · exact hND t htail k hk
            · exfalso
              have h40' : 40 ≤ takeWhileCount isB64Char (y ++ F) :=
                (matchB64_char _ _ hk).1
              have hylen : y.length ≤ 10 := by
                have := List.IsSuffix.length_le hy
                simpa [redactedTxt] using this
              have hmem : ']' ∈ y :=
                redacted_tails_mem y ((List.mem_tails _ _).mpr hy) hyne
              have hmem2 : ']' ∈ (y ++ F).take (takeWhileCount isB64Char (y ++ F)) := by
                have h1 : ']' ∈ (y ++ F).take y.length := by
                  rw [List.take_left]
                  exact hmem
                have h2 : (y ++ F).take y.length =
                    ((y ++ F).take (takeWhileCount isB64Char (y ++ F))).take y.length := by
                  rw [List.take_take, Nat.min_eq_left (by omega)]
                rw [h2] at h1
                exact List.take_subset _ _ h1
              have := twc_take_sat isB64Char (y ++ F) ']' hmem2
              exact absurd this (by decide)
          · have hrepl : b64Repl ((c :: rest).take (K' + 1)) =
                (c :: rest).take (K' + 1) := by
              simp only [b64Repl]
              rw [if_neg hhe]
            rw [hrepl]
            set s0 := c :: rest with hs0
            set r := takeWhileCount isB64Char s0 with hr
            set eqr := takeWhileCount (fun c => c == '=') (s0.drop r) with heqr
            set e := min 2 eqr with he
            have hK : K' + 1 = r + e := hkval
            have hrle : r ≤ s0.length := twc_le_length _ _
            have hele : e ≤ eqr := Nat.min_le_right _ _
            have heqrle : eqr ≤ (s0.drop r).length := twc_le_length _ _
            have hslice : s0.take (K' + 1) = s0.take r ++ (s0.drop r).take e := by
              rw [hK, List.take_add]
            have hBsat : ∀ d ∈ s0.take r, isB64Char d = true := by
              rw [hr]
              exact twc_take_sat isB64Char s0
            have hEsat : ∀ d ∈ (s0.drop r).take e, d = '=' := by
              intro d hd
              have h1 : (s0.drop r).take e = ((s0.drop r).take eqr).take e := by
                rw [List.take_take, Nat.min_eq_left hele]
              rw [h1] at hd
              have h2 := twc_take_sat (fun c => c == '=') (s0.drop r) d
              rw [← heqr] at h2
              have := h2 (List.take_subset _ _ hd)
              simpa using this
            have hEplen : ((s0.drop r).take e).length = e := by
              rw [List.length_take, Nat.min_eq_left (by omega)]
            set F := replaceAll matchB64 b64Repl (s0.drop (K' + 1)) with hF
            have hDF : F = [] ∨ ∃ f0 F1 d0 D1, F = f0 :: F1 ∧
                s0.drop (K' + 1) = d0 :: D1 ∧ (f0 = '[' ∨ f0 = d0) := by
              cases hD : s0.drop (K' + 1) with
              | nil =>
                left
                rw [hF, hD]
                rfl
              | cons d0 D1 =>
                right
                rcases f8_head_cases d0 D1 with ⟨tail0, hft⟩ | ⟨tail0, hft⟩
                · exact ⟨d0, tail0, d0, D1, by rw [hF, hD]; exact hft, rfl, Or.inr rfl⟩
                · exact ⟨'[', tail0, d0, D1, by rw [hF, hD]; exact hft, rfl, Or.inl rfl⟩
            intro t ht k hk
            rcases suffix_append_cases ht with htail | ⟨y, hy, hyne, rfl⟩
            · exact hND t htail k hk
            · rw [hslice] at hy
              rcases suffix_append_cases hy with hyE | ⟨w, hw, hwne, rfl⟩
              · exfalso
                cases hyc : y with
                | nil => exact hyne hyc
                | cons d ytail =>
                  have hd : d ∈ (s0.drop r).take e := by
                    apply List.IsSuffix.subset hyE
                    rw [hyc]
                    exact List.mem_cons_self d ytail
                  have hdeq : d = '=' := hEsat d hd
                  have h40' := (matchB64_char _ _ hk).1
                  rw [hyc] at h40'
                  have hzero : takeWhileCount isB64Char ((d :: ytail) ++ F) = 0 := by
                    rw [List.cons_append]
                    apply twc_head_zero
                    rw [hdeq]
                    decide
                  rw [hzero] at h40'
                  omega
              · -- y = w ++ E-part with w a nonempty suffix of the b64 block
                have hwsat : ∀ d ∈ w, isB64Char d = true := fun d hd =>
                  hBsat d (List.IsSuffix.subset hw hd)
                obtain ⟨h40', hkv'⟩ := matchB64_char _ _ hk
                have hq_le : w.length ≤ ((w ++ (s0.drop r).take e) ++ F).length := by
                  simp only [List.length_append]
                  omega
                have htakeq : ((w ++ (s0.drop r).take e) ++ F).take w.length = w := by
                  rw [List.append_assoc]
                  exact List.take_left w _
                have hrun_ge : w.length ≤
                    takeWhileCount isB64Char ((w ++ (s0.drop r).take e) ++ F) := by
                  apply twc_ge_of_prefix isB64Char _ w.length
                  · rw [htakeq]
                    exact hwsat
                  · exact hq_le
                have hEpF : (s0.drop r).take e ++ F = [] ∨
                    ∃ d0 v1, (s0.drop r).take e ++ F = d0 :: v1 ∧ isB64Char d0 = false := by
                  cases hEp : (s0.drop r).take e with
                  | cons d1 E1 =>
                    right
                    refine ⟨d1, E1 ++ F, by rw [List.cons_append], ?_⟩
                    have : d1 = '=' := hEsat d1 (by rw [hEp]; exact List.mem_cons_self d1 E1)
                    rw [this]
                    decide
                  | nil =>
                    rcases hDF with hFnil | ⟨f0, F1, d0, D1, hFc, hDc, hf0⟩
                    · left
                      rw [hFnil]
                      rfl
                    · right
                      refine ⟨f0, F1, by rw [hFc]; rfl, ?_⟩
                      rcases hf0 with rfl | heq0
                      · decide
                      · -- the head of the remainder: with E-part empty, e = 0
                        -- and d0 is the non-b64 stop character of the run
                        rw [heq0]
                        have he0 : e = 0 := by
                          have := congrArg List.length hEp
                          rw [hEplen] at this
                          simpa using this
                        have hrlt : r < s0.length := by
                          have := congrArg List.length hDc
                          simp only [List.length_drop, List.length_cons] at this
                          omega
                        obtain ⟨dd, hdd, hddb⟩ := twc_stop isB64Char s0 (by rw [← hr] at *; omega)
                        rw [← hr] at hdd
                        have hgd : s0.get? r = some d0 := by
                          have h1 : (s0.drop (K' + 1)).get? 0 = some d0 := by
                            rw [hDc]
                            rfl
                          rw [List.get?_drop] at h1
                          have h2 : K' + 1 + 0 = r := by omega
                          rw [h2] at h1
                          exact h1
                        rw [hgd] at hdd
                        have : dd = d0 := by injection hdd.symm
                        rw [← this]
                        exact hddb
                have hrun_le : takeWhileCount isB64Char
                    ((w ++ (s0.drop r).take e) ++ F) ≤ w.length := by
                  rw [List.append_assoc]
                  exact twc_append_le isB64Char w _ hEpF
                have hrun : takeWhileCount isB64Char ((w ++ (s0.drop r).take e) ++ F) =
                    w.length := Nat.le_antisymm hrun_le hrun_ge
                have hdropq : ((w ++ (s0.drop r).take e) ++ F).drop w.length =
                    (s0.drop r).take e ++ F := by
                  rw [List.append_assoc]
                  exact List.drop_left w _
                -- the '=' run after the match: at most e characters
                have hep_le : min 2 (takeWhileCount (fun c => c == '=')
                    ((s0.drop r).take e ++ F)) ≤ e := by
                  rcases Nat.lt_or_ge e 2 with he2 | he2
                  · -- e < 2 forces eqr = e and the remainder head is not '='
                    have heeq : e = eqr := by
                      rw [he]
                      rcases Nat.lt_or_ge eqr 2 with h' | h'
                      · omega
                      · rw [he] at he2
                        omega
                    have hEall : ∀ d ∈ (s0.drop r).take e, (fun c => c == '=') d = true := by
                      intro d hd
                      have := hEsat d hd
                      simp [this]
                    have htwE : takeWhileCount (fun c => c == '=')
                        ((s0.drop r).take e ++ F) = e + takeWhileCount (fun c => c == '=') F := by
                      rw [twc_append_all _ _ _ hEall, hEplen]
                    have hFzero : takeWhileCount (fun c => c == '=') F = 0 := by
                      rcases hDF with hFnil | ⟨f0, F1, d0, D1, hFc, hDc, hf0⟩
                      · rw [hFnil]
                        rfl
                      · rw [hFc]
                        apply twc_head_zero
                        rcases hf0 with rfl | heq0
                        · decide
                        · -- d0 is the stop character of the '=' run
                          rw [heq0]
                          have hlt2 : eqr < (s0.drop r).length := by
                            have hlen1 := congrArg List.length hDc
                            simp only [List.length_drop, List.length_cons] at hlen1
                            simp only [List.length_drop]
                            have hK2 : K' + 1 = r + e := hK
                            have heeq2 : e = eqr := heeq
                            omega
                          obtain ⟨dd, hdd, hddb⟩ := twc_stop (fun c => c == '=')
                            (s0.drop r) (by rw [← heqr] at *; omega)
                          rw [← heqr] at hdd
                          have hgd : (s0.drop r).get? eqr = some d0 := by
                            have h1 : (s0.drop (K' + 1)).get? 0 = some d0 := by
                              rw [hDc]
                              rfl
                            rw [List.get?_drop] at h1
                            have h2 : (s0.drop r).get? e = some d0 := by
                              rw [List.get?_drop]
                              have h3 : r + e = K' + 1 + 0 := by omega
                              rw [h3]
                              exact h1
                            rw [← heeq]
                            exact h2
                          rw [hgd] at hdd
                          have : dd = d0 := by injection hdd.symm
                          rw [← this]
                          exact hddb
                    rw [htwE, hFzero]
                    omega
                  · have := Nat.min_le_left 2 (takeWhileCount (fun c => c == '=')
                      ((s0.drop r).take e ++ F))
                    omega
                have hk_le : k ≤ w.length + e := by
                  rw [hkv', hrun, hdropq]
                  have := hep_le
                  omega
                -- the matched slice sits inside the kept slice
                have hsub : ∀ d ∈ ((w ++ (s0.drop r).take e) ++ F).take k,
                    d ∈ s0.take (K' + 1) := by
                  intro d hd
                  have hlen_wE : (w ++ (s0.drop r).take e).length = w.length + e := by
                    simp only [List.length_append, hEplen]
                  have h1 : ((w ++ (s0.drop r).take e) ++ F).take k =
                      (w ++ (s0.drop r).take e).take k := by
                    apply List.take_append_of_le_length
                    omega
                  rw [h1] at hd
                  have h2 := List.take_subset _ _ hd
                  rw [hslice]
                  rcases List.mem_append.mp h2 with h3 | h3
                  · exact List.mem_append.mpr (Or.inl (List.IsSuffix.subset hw h3))
                  · exact List.mem_append.mpr (Or.inr h3)
                have hheF : looksHighEntropy (s0.take (K' + 1)) = false := by
                  simpa using hhe
                exact lhe_false_mono hsub hheF
  exact fun s => main s.length s (Nat.le_refl _)

theorem constRedacted_keeps :
    ∀ x : List Char, constRedacted x = x ∨ constRedacted x = redactedTxt :=
  fun _ => Or.inr rfl

theorem b64Repl_keeps : ∀ x : List Char, b64Repl x = x ∨ b64Repl x = redactedTxt := by
  intro x
  simp only [b64Repl]
  split
  · exact Or.inr rfl
  · exact Or.inl rfl

theorem noM_sk_final (s : List Char) : NoM matchSk (redactSecretsChars s) := by
  simp only [redactSecretsChars]
  apply pres_noM matchSk matchB64 b64Repl matchSk_transfer matchSk_rs
    matchB64_start b64Repl_keeps
  apply pres_noM matchSk matchAIza constRedacted matchSk_transfer matchSk_rs
    matchAIza_start constRedacted_keeps
  apply pres_noM matchSk matchPassword constRedacted matchSk_transfer matchSk_rs
    matchPassword_start constRedacted_keeps
  apply pres_noM matchSk matchAnthropic constRedacted matchSk_transfer matchSk_rs
    matchAnthropic_start constRedacted_keeps
  apply pres_noM matchSk matchBearer constRedacted matchSk_transfer matchSk_rs
    matchBearer_start constRedacted_keeps
  apply pres_noM matchSk matchXoxb constRedacted matchSk_transfer matchSk_rs
    matchXoxb_start constRedacted_keeps
  apply pres_noM matchSk matchGhp constRedacted matchSk_transfer matchSk_rs
    matchGhp_start constRedacted_keeps
  exact self_noM matchSk matchSk_transfer matchSk_rs matchSk_start
    matchSk_posLen matchSk_nil s

theorem noM_ghp_final (s : List Char) : NoM matchGhp (redactSecretsChars s) := by
  simp only [redactSecretsChars]
  apply pres_noM matchGhp matchB64 b64Repl matchGhp_transfer matchGhp_rs
    matchB64_start b64Repl_keeps
  apply pres_noM matchGhp matchAIza constRedacted matchGhp_transfer matchGhp_rs
    matchAIza_start constRedacted_keeps
  apply pres_noM matchGhp matchPassword constRedacted matchGhp_transfer matchGhp_rs
    matchPassword_start constRedacted_keeps
  apply pres_noM matchGhp matchAnthropic constRedacted matchGhp_transfer matchGhp_rs
    matchAnthropic_start constRedacted_keeps
  apply pres_noM matchGhp matchBearer constRedacted matchGhp_transfer matchGhp_rs
    matchBearer_start constRedacted_keeps
  apply pres_noM matchGhp matchXoxb constRedacted matchGhp_transfer matchGhp_rs
    matchXoxb_start constRedacted_keeps
  exact self_noM matchGhp matchGhp_transfer matchGhp_rs matchGhp_start
    matchGhp_posLen matchGhp_nil _

theorem noM_xoxb_final (s : List Char) : NoM matchXoxb (redactSecretsChars s) := by
  simp only [redactSecretsChars]
  apply pres_noM matchXoxb matchB64 b64Repl matchXoxb_transfer matchXoxb_rs
    matchB64_start b64Repl_keeps
  apply pres_noM matchXoxb matchAIza constRedacted matchXoxb_transfer matchXoxb_rs
    matchAIza_start constRedacted_keeps
  apply pres_noM matchXoxb matchPassword constRedacted matchXoxb_transfer matchXoxb_rs
    matchPassword_start constRedacted_keeps
  apply pres_noM matchXoxb matchAnthropic constRedacted matchXoxb_transfer matchXoxb_rs
    matchAnthropic_start constRedacted_keeps
  apply pres_noM matchXoxb matchBearer constRedacted matchXoxb_transfer matchXoxb_rs
    matchBearer_start constRedacted_keeps
  exact self_noM matchXoxb matchXoxb_transfer matchXoxb_rs matchXoxb_start
    matchXoxb_posLen matchXoxb_nil _

theorem noM_bearer_final (s : List Char) : NoM matchBearer (redactSecretsChars s) := by
  simp only [redactSecretsChars]
  apply pres_noM matchBearer matchB64 b64Repl matchBearer_transfer matchBearer_rs
    matchB64_start b64Repl_keeps
  apply pres_noM matchBearer matchAIza constRedacted matchBearer_transfer matchBearer_rs
    matchAIza_start constRedacted_keeps
  apply pres_noM matchBearer matchPassword constRedacted matchBearer_transfer
    matchBearer_rs matchPassword_start constRedacted_keeps
  apply pres_noM matchBearer matchAnthropic constRedacted matchBearer_transfer
    matchBearer_rs matchAnthropic_start constRedacted_keeps
  exact self_noM matchBearer matchBearer_transfer matchBearer_rs matchBearer_start
    matchBearer_posLen matchBearer_nil _

theorem noM_anthropic_final (s : List Char) :
    NoM matchAnthropic (redactSecretsChars s) := by
  simp only [redactSecretsChars]
  apply pres_noM matchAnthropic matchB64 b64Repl matchAnthropic_transfer
    matchAnthropic_rs matchB64_start b64Repl_keeps
  apply pres_noM matchAnthropic matchAIza constRedacted matchAnthropic_transfer
    matchAnthropic_rs matchAIza_start constRedacted_keeps
  apply pres_noM matchAnthropic matchPassword constRedacted matchAnthropic_transfer
    matchAnthropic_rs matchPassword_start constRedacted_keeps
  exact self_noM matchAnthropic matchAnthropic_transfer matchAnthropic_rs
    matchAnthropic_start matchAnthropic_posLen matchAnthropic_nil _

theorem noM_password_final (s : List Char) :
    NoM matchPassword (redactSecretsChars s) := by
  simp only [redactSecretsChars]
  apply pres_noM matchPassword matchB64 b64Repl matchPassword_transfer
    matchPassword_rs matchB64_start b64Repl_keeps
  apply pres_noM matchPassword matchAIza constRedacted matchPassword_transfer
    matchPassword_rs matchAIza_start constRedacted_keeps
  exact self_noM matchPassword matchPassword_transfer matchPassword_rs
    matchPassword_start matchPassword_posLen matchPassword_nil _

theorem noM_aiza_final (s : List Char) : NoM matchAIza (redactSecretsChars s) := by
  simp only [redactSecretsChars]
  apply pres_noM matchAIza matchB64 b64Repl matchAIza_transfer matchAIza_rs
    matchB64_start b64Repl_keeps
  exact self_noM matchAIza matchAIza_transfer matchAIza_rs matchAIza_start
    matchAIza_posLen matchAIza_nil _

theorem f8_fix_final (s : List Char) :
    replaceAll matchB64 b64Repl (redactSecretsChars s) = redactSecretsChars s := by
  simp only [redactSecretsChars]
  apply replaceAll_eq_self_of_allId
  intro t ht k hk
  have hlh := f8_noHigh _ t ht k hk
  simp [b64Repl, hlh]

theorem redactSecretsChars_idempotent (s : List Char) :
    redactSecretsChars (redactSecretsChars s) = redactSecretsChars s := by
  have h1 := replaceAll_eq_self_of_noM matchSk constRedacted _ (noM_sk_final s)
  have h2 := replaceAll_eq_self_of_noM matchGhp constRedacted _ (noM_ghp_final s)
  have h3 := replaceAll_eq_self_of_noM matchXoxb constRedacted _ (noM_xoxb_final s)
  have h4 := replaceAll_eq_self_of_noM matchBearer constRedacted _ (noM_bearer_final s)
  have h5 := replaceAll_eq_self_of_noM matchAnthropic constRedacted _
    (noM_anthropic_final s)
  have h6 := replaceAll_eq_self_of_noM matchPassword constRedacted _
    (noM_password_final s)
  have h7 := replaceAll_eq_self_of_noM matchAIza constRedacted _ (noM_aiza_final s)
  have h8 := f8_fix_final s
  calc redactSecretsChars (redactSecretsChars s)
      = replaceAll matchB64 b64Repl (replaceAll matchAIza constRedacted
          (replaceAll matchPassword constRedacted (replaceAll matchAnthropic constRedacted
          (replaceAll matchBearer constRedacted (replaceAll matchXoxb constRedacted
          (replaceAll matchGhp constRedacted (replaceAll matchSk constRedacted
          (redactSecretsChars s)))))))) := by
        simp only [redactSecretsChars]
    _ = redactSecretsChars s := by
        rw [h1, h2, h3, h4, h5, h6, h7]
        exact h8

/-- C9: redactor idempotence — for every string `x`,
`redactSecrets (redactSecrets x) = redactSecrets x`; applying the redactor
a second time changes nothing.  Each of the seven constant-replacement
patterns finds no match anywhere in the final output (its own pass removed
them, later passes replace matches only by `[REDACTED]`, which none of the
patterns can match into), and the base64 pass leaves only low-entropy
blocks, which its entropy guard then keeps verbatim. -/
theorem redactSecrets_idempotent :
    ∀ x : String, redactSecrets (redactSecrets x) = redactSecrets x := by
  intro x
  exact congrArg String.mk (redactSecretsChars_idempotent x.data)

end RemoteWiz
